import Mathlib

/-!
Verification of the notebook-manipulation engine of this repository
(`src/client.js`, server part: class `JupyterMCPServer`).

JavaScript strings are modelled as lists of characters (`JStr`); the
notebook document, cells and every mutation/query operation are shallowly
embedded as executable Lean functions translated statement-by-statement
from the source.  Fallible operations (the methods that `throw` before the
`writeJson` persistence step) return `Except String Notebook`; a thrown
error means the persisted notebook is unchanged, which `runOp` captures.
-/

/-- A JavaScript string, modelled as its sequence of characters. -/
abbrev JStr := List Char

/-- The character class of the regex escape `\s` (ASCII whitespace). -/
def isSpaceChar (c : Char) : Bool :=
  c = ' ' || c = '\t' || c = '\n' || c = '\x0b' || c = '\x0c' || c = '\r'

/-- The character class of the regex escape `\w` (letters, digits, underscore). -/
def isWordChar (c : Char) : Bool :=
  c.isAlphanum || c = '_'

/-- JS `source.split('\n')`: split a string at every newline character.
Always returns at least one (possibly empty) piece. -/
def splitNl : JStr → List JStr
  | [] => [[]]
  | c :: cs =>
    match splitNl cs with
    | [] => [[]]
    | l :: ls => if c = '\n' then [] :: l :: ls else (c :: l) :: ls

/-- JS `lines.join('\n')`: join pieces with a single newline. -/
def joinNl : List JStr → JStr
  | [] => []
  | [l] => l
  | l :: ls => l ++ '\n' :: joinNl ls

/-- Split off the first line: returns the longest newline-free prefix and,
when a newline exists, the remainder after the first newline. -/
def breakNl : JStr → JStr × Option JStr
  | [] => ([], none)
  | c :: cs =>
    if c = '\n' then ([], some cs)
    else
      let r := breakNl cs
      (c :: r.1, r.2)

/-- JS `line.trim()`: strip whitespace from both ends. -/
def jsTrim (l : JStr) : JStr :=
  ((l.dropWhile isSpaceChar).reverse.dropWhile isSpaceChar).reverse

/-- JS `String.prototype.toLowerCase`, character-wise (ASCII case fold). -/
def jsLower (s : JStr) : JStr := s.map Char.toLower

/-- Cell types of the notebook format. -/
inductive CellType
  | code
  | markdown
  | raw
deriving DecidableEq

/-- A cell's `source` field as stored in notebook JSON: either a plain
string or an ordered sequence of line fragments. -/
inductive Source
  | str (s : JStr)
  | frags (ls : List JStr)
deriving DecidableEq

/-- Translation of `Array.isArray(cell.source) ? cell.source.join('') : cell.source`. -/
def normSource : Source → JStr
  | .str s => s
  | .frags ls => ls.flatten

/-- Cell and document metadata: an opaque JSON object, modelled as an
association list of key/value pairs (values kept opaque as strings). -/
abbrev Metadata := List (String × String)

/-- JS object spread `{ ...a, ...b }`: keys of `b` overwrite those of `a`. -/
def mergeMeta (a b : Metadata) : Metadata :=
  a.filter (fun p => !(b.any (fun q => q.1 == p.1))) ++ b

/-- An output record attached to a code cell; the engine stores, retrieves
and replaces these wholesale without inspecting them. -/
abbrev Output := String

/-- A notebook cell.  `execution_count` and `outputs` model optionally
present JSON fields: `none` means the field is absent; for
`execution_count`, `some none` is the JSON value `null`. -/
structure Cell where
  cell_type : CellType
  metadata : Metadata
  source : Source
  execution_count : Option (Option Int) := none
  outputs : Option (List Output) := none
deriving DecidableEq

/-- A fallback cell used to totalise list lookups that the operations only
perform at indices already checked to be in bounds. -/
def dCell : Cell :=
  { cell_type := .raw, metadata := [], source := .str [] }

/-- The in-memory notebook document. -/
structure Notebook where
  cells : List Cell
  metadata : Metadata
  nbformat : Int
  nbformat_minor : Int
deriving DecidableEq

/-- The cell built by `addCell`, `bulkAddCells` and `splitCell`: empty
metadata, string source, execution state only for code cells. -/
def newCell (t : CellType) (src : JStr) : Cell :=
  { cell_type := t
    metadata := []
    source := .str src
    execution_count := if t = .code then some none else none
    outputs := if t = .code then some [] else none }

/-- The start position actually used by `Array.prototype.splice(start, ...)`:
negative values count from the end (clamped at 0), positive ones are
clamped at the length. -/
def spliceStart (start : Int) (len : Nat) : Nat :=
  if start < 0 then ((len : Int) + start).toNat else min start.toNat len

/-- Translation of `arr.splice(start, 0, ...items)`: insert `items` at the (clamped)
start position. -/
def jsInsertAt (start : Int) (items : List Cell) (l : List Cell) : List Cell :=
  l.take (spliceStart start l.length) ++ items ++ l.drop (spliceStart start l.length)

/-- Apply `f` to the element at position `i` (in-place cell mutation). -/
def modifyCell (l : List Cell) (i : Nat) (f : Cell → Cell) : List Cell :=
  match l, i with
  | [], _ => []
  | c :: cs, 0 => f c :: cs
  | c :: cs, n + 1 => c :: modifyCell cs n f

/-- Tool `notebook_add_cell` (`addCell`): builds the new cell and runs
`cells.splice(index + 1, 0, newCell)`.  Never fails. -/
def addCell (nb : Notebook) (cellType : CellType) (source : JStr) (index : Int) : Notebook :=
  { nb with cells := jsInsertAt (index + 1) [newCell cellType source] nb.cells }

/-- Tool `notebook_bulk_add_cells` (`bulkAddCells`): builds all cells, then
`cells.splice(index + 1, 0, ...newCells)`.  Never fails. -/
def bulkAddCells (nb : Notebook) (cellsSpec : List (CellType × JStr)) (index : Int) : Notebook :=
  { nb with cells := jsInsertAt (index + 1) (cellsSpec.map (fun p => newCell p.1 p.2)) nb.cells }

/-- Tool `notebook_edit_cell` (`editCell`): bounds check, then overwrite the
source with the given string. -/
def editCell (nb : Notebook) (cellIndex : Int) (newSource : JStr) : Except String Notebook :=
  if (nb.cells.length : Int) ≤ cellIndex ∨ cellIndex < 0 then
    .error "Cell index out of bounds"
  else
    .ok { nb with cells := modifyCell nb.cells cellIndex.toNat (fun c => { c with source := .str newSource }) }

/-- Tool `notebook_delete_cell` (`deleteCell`): bounds check, then
`cells.splice(cellIndex, 1)`. -/
def deleteCell (nb : Notebook) (cellIndex : Int) : Except String Notebook :=
  if (nb.cells.length : Int) ≤ cellIndex ∨ cellIndex < 0 then
    .error "Cell index out of bounds"
  else
    .ok { nb with cells := nb.cells.eraseIdx cellIndex.toNat }

/-- Tool `notebook_change_cell_type` (`changeCellType`): bounds check, set
`cell_type`; entering `code` (re)initialises the execution fields, leaving
`code` deletes them. -/
def changeCellType (nb : Notebook) (cellIndex : Int) (newType : CellType) : Except String Notebook :=
  if (nb.cells.length : Int) ≤ cellIndex ∨ cellIndex < 0 then
    .error "Cell index out of bounds"
  else
    .ok { nb with cells := modifyCell nb.cells cellIndex.toNat (fun c =>
      if newType = .code then
        { c with cell_type := newType, execution_count := some none, outputs := some [] }
      else
        { c with cell_type := newType, execution_count := none, outputs := none }) }

/-- The copy inserted by `duplicateCell`: a value copy of the original,
with the execution state reset when the original is a code cell. -/
def dupOf (c : Cell) : Cell :=
  if c.cell_type = .code then { c with execution_count := some none, outputs := some [] } else c

/-- The insertion loop of `duplicateCell`: iteration `j` runs
`cells.splice(pos + j, 0, dup)` on the list grown so far. -/
def dupLoop (dup : Cell) (pos : Int) : Nat → List Cell → List Cell
  | 0, cells => cells
  | n + 1, cells => dupLoop dup (pos + 1) n (jsInsertAt pos [dup] cells)

/-- Tool `notebook_duplicate_cell` (`duplicateCell`): bounds check, then insert
`count` copies right after the original, resetting execution state of
code-cell copies. -/
def duplicateCell (nb : Notebook) (cellIndex : Int) (count : Int) : Except String Notebook :=
  if (nb.cells.length : Int) ≤ cellIndex ∨ cellIndex < 0 then
    .error "Cell index out of bounds"
  else
    let orig := (nb.cells.get? cellIndex.toNat).getD dCell
    .ok { nb with cells := dupLoop (dupOf orig) (cellIndex + 1) count.toNat nb.cells }

/-- The tool dispatcher's count argument coercion `args.count || 1`:
an absent or zero (falsy) count becomes the default 1. -/
def dupCountArg (count : Option Int) : Int :=
  match count with
  | none => 1
  | some c => if c = 0 then 1 else c

/-- Tool `notebook_move_cell` (`moveCell`): both indices bounds-checked against
the original length; then remove at `fromIndex` and re-insert at `toIndex`
of the shortened sequence. -/
def moveCell (nb : Notebook) (fromIndex toIndex : Int) : Except String Notebook :=
  if (nb.cells.length : Int) ≤ fromIndex ∨ fromIndex < 0 ∨
     (nb.cells.length : Int) ≤ toIndex ∨ toIndex < 0 then
    .error "Cell index out of bounds"
  else
    let cell := (nb.cells.get? fromIndex.toNat).getD dCell
    .ok { nb with cells := jsInsertAt toIndex [cell] (nb.cells.eraseIdx fromIndex.toNat) }

/-- Tool `notebook_split_cell` (`splitCell`): bounds check, normalization of the
source, split into lines, check the line number, keep lines `[0, k)` in
the original cell and move lines `[k, end)` into a fresh cell of the same
type inserted right after. -/
def splitCell (nb : Notebook) (cellIndex : Int) (lineNumber : Int) : Except String Notebook :=
  if (nb.cells.length : Int) ≤ cellIndex ∨ cellIndex < 0 then
    .error "Cell index out of bounds"
  else
    let c := (nb.cells.get? cellIndex.toNat).getD dCell
    let lines := splitNl (normSource c.source)
    if (lines.length : Int) ≤ lineNumber ∨ lineNumber < 0 then
      .error "Line number out of bounds"
    else
      let firstPart := joinNl (lines.take lineNumber.toNat)
      let secondPart := joinNl (lines.drop lineNumber.toNat)
      let mutated := modifyCell nb.cells cellIndex.toNat (fun cc => { cc with source := .str firstPart })
      .ok { nb with cells := jsInsertAt (cellIndex + 1) [newCell c.cell_type secondPart] mutated }

/-- Tool `notebook_merge_cells` (`mergeCells`): fails unless a next cell
exists; otherwise the current cell's source becomes the two normSourced
sources joined by one newline and the next cell is removed. -/
def mergeCells (nb : Notebook) (cellIndex : Int) : Except String Notebook :=
  if (nb.cells.length : Int) - 1 ≤ cellIndex ∨ cellIndex < 0 then
    .error "Cannot merge: cell index out of bounds or no next cell"
  else
    let cur := (nb.cells.get? cellIndex.toNat).getD dCell
    let next := (nb.cells.get? (cellIndex.toNat + 1)).getD dCell
    let merged := normSource cur.source ++ '\n' :: normSource next.source
    let mutated := modifyCell nb.cells cellIndex.toNat (fun c => { c with source := .str merged })
    .ok { nb with cells := mutated.eraseIdx (cellIndex.toNat + 1) }

/-- The cell produced by a successful merge: the current cell with its
source replaced by the newline-joined normalized sources. -/
def mergedCell (cur next : Cell) : Cell :=
  { cur with source := .str (normSource cur.source ++ '\n' :: normSource next.source) }

/-- Tool `notebook_clear_cell_outputs` (`clearCellOutputs`): bounds check; for a
code cell reset outputs and execution count, otherwise leave the cell as is. -/
def clearCellOutputs (nb : Notebook) (cellIndex : Int) : Except String Notebook :=
  if (nb.cells.length : Int) ≤ cellIndex ∨ cellIndex < 0 then
    .error "Cell index out of bounds"
  else
    .ok { nb with cells := modifyCell nb.cells cellIndex.toNat (fun c =>
      if c.cell_type = .code then { c with outputs := some [], execution_count := some none } else c) }

/-- Tool `notebook_clear_all_outputs` (`clearAllOutputs`): apply the clearing
effect to every code cell.  Never fails. -/
def clearAllOutputs (nb : Notebook) : Notebook :=
  { nb with cells := nb.cells.map (fun c =>
      if c.cell_type = .code then { c with outputs := some [], execution_count := some none } else c) }

/-- Tool `notebook_edit_cell_output` (`editCellOutput`): bounds check, reject
non-code cells, then replace the outputs wholesale. -/
def editCellOutput (nb : Notebook) (cellIndex : Int) (outputs : List Output) : Except String Notebook :=
  if (nb.cells.length : Int) ≤ cellIndex ∨ cellIndex < 0 then
    .error "Cell index out of bounds"
  else if ((nb.cells.get? cellIndex.toNat).getD dCell).cell_type ≠ .code then
    .error "not a code cell"
  else
    .ok { nb with cells := modifyCell nb.cells cellIndex.toNat (fun c => { c with outputs := some outputs }) }

/-- Tool `notebook_edit_cell_metadata` (`editCellMetadata`): bounds check, then
shallow-merge into the cell metadata. -/
def editCellMetadata (nb : Notebook) (cellIndex : Int) (m : Metadata) : Except String Notebook :=
  if (nb.cells.length : Int) ≤ cellIndex ∨ cellIndex < 0 then
    .error "Cell index out of bounds"
  else
    .ok { nb with cells := modifyCell nb.cells cellIndex.toNat (fun c =>
      { c with metadata := mergeMeta c.metadata m }) }

/-- Tool `notebook_edit_metadata` (`editMetadata`): shallow-merge into the
document metadata.  Never fails. -/
def editMetadata (nb : Notebook) (m : Metadata) : Notebook :=
  { nb with metadata := mergeMeta nb.metadata m }

/-- Case folding applied by `searchNotebook`: the identity when the search
is case sensitive, `toLowerCase` otherwise. -/
def caseFold (caseSensitive : Bool) (s : JStr) : JStr :=
  if caseSensitive then s else jsLower s

/-- One entry of the `notebook_search` result list (`matchList` models the
JSON field `matches`). -/
structure SearchHit where
  cell_index : Nat
  cell_type : CellType
  matchList : List (Nat × JStr)
deriving DecidableEq

/-- The per-line scan of `searchNotebook`: 1-based line numbers and trimmed
content of every line that itself contains the query. -/
def matchingLines (query : JStr) (caseSensitive : Bool) (source : JStr) : List (Nat × JStr) :=
  ((splitNl source).enum.filter
    (fun p => decide (caseFold caseSensitive query <:+: caseFold caseSensitive p.2))).map
    (fun p => (p.1 + 1, jsTrim p.2))

/-- The `forEach`/`push` loop of `searchNotebook`, with `idx` the index of
the first cell of the remaining list. -/
def searchFrom (query : JStr) (caseSensitive : Bool) (idx : Nat) : List Cell → List SearchHit
  | [] => []
  | c :: rest =>
    let source := normSource c.source
    if caseFold caseSensitive query <:+: caseFold caseSensitive source then
      { cell_index := idx, cell_type := c.cell_type,
        matchList := matchingLines query caseSensitive source } :: searchFrom query caseSensitive (idx + 1) rest
    else
      searchFrom query caseSensitive (idx + 1) rest

/-- Tool `notebook_search` (`searchNotebook`): report every cell whose
(optionally case-folded) normalized source contains the (optionally
case-folded) query, with its per-line matches. -/
def searchNotebook (nb : Notebook) (query : JStr) (caseSensitive : Bool) : List SearchHit :=
  searchFrom query caseSensitive 0 nb.cells

/-- The `\s+(\w+)` part of the outline regexes, applied to the text after
the keyword: at least one whitespace character, then the capture is the
maximal word-character run after the whitespace run.  Whitespace and word
characters are disjoint, so greedy matching needs no backtracking. -/
def swMatch : JStr → Option JStr
  | [] => none
  | c :: cs =>
    if isSpaceChar c then
      if (cs.dropWhile isSpaceChar).takeWhile isWordChar = [] then none
      else some ((cs.dropWhile isSpaceChar).takeWhile isWordChar)
    else none

/-- Attempt the regex at a line-start position: the keyword must be
immediately present, and `swMatch` handles the rest. -/
def tryAt (kw : JStr) (s : JStr) : Option JStr :=
  if kw.isPrefixOf s then swMatch (s.drop kw.length) else none

/-- Fuelled scan over line-start positions; the fuel strictly exceeds the
remaining string length at every call, so it never runs out. -/
def findPatAux (kw : JStr) : Nat → JStr → Option JStr
  | 0, _ => none
  | fuel + 1, s =>
    match tryAt kw s with
    | some w => some w
    | none =>
      match (breakNl s).2 with
      | some rest => findPatAux kw fuel rest
      | none => none

/-- Leftmost match of the multiline regex `^kw\s+(\w+)` over a whole
source string: try each line-start position from left to right. -/
def findPatFrom (kw : JStr) (s : JStr) : Option JStr :=
  findPatAux kw (s.length + 1) s

/-- The keyword of the function-definition pattern `/^def\s+(\w+)/m`. -/
def defKw : JStr := ['d', 'e', 'f']

/-- The keyword of the class-definition pattern `/^class\s+(\w+)/m`. -/
def classKw : JStr := ['c', 'l', 'a', 's', 's']

/-- The title suffix `getOutline` appends for a code cell. -/
inductive TitleSuffix
  | defn (name : JStr)
  | cls (name : JStr)
deriving DecidableEq

/-- The code-cell branch of `getOutline`: the `def` pattern is consulted
first, and only if it matches nowhere is the `class` pattern consulted. -/
def codeTitle (source : JStr) : Option TitleSuffix :=
  match findPatFrom defKw source with
  | some n => some (.defn n)
  | none =>
    match findPatFrom classKw source with
    | some n => some (.cls n)
    | none => none

/-- The mutation operations of the engine, with the argument shapes the
dispatcher supplies. -/
inductive Op
  | insert (index : Int) (cellType : CellType) (source : JStr)
  | bulkInsert (index : Int) (cellsSpec : List (CellType × JStr))
  | replaceSource (cellIndex : Int) (newSource : JStr)
  | delete (cellIndex : Int)
  | retype (cellIndex : Int) (newType : CellType)
  | duplicate (cellIndex : Int) (count : Int)
  | move (fromIndex toIndex : Int)
  | split (cellIndex lineNumber : Int)
  | merge (cellIndex : Int)
  | editCellMeta (cellIndex : Int) (m : Metadata)
  | editDocMeta (m : Metadata)
  | editOutputs (cellIndex : Int) (outputs : List Output)
  | clearOutputs (cellIndex : Int)
  | clearAll
deriving DecidableEq

/-- Dispatch of a mutation operation to its engine method.  Operations
whose methods never throw are wrapped in `.ok`. -/
def applyOp (nb : Notebook) : Op → Except String Notebook
  | .insert index t src => .ok (addCell nb t src index)
  | .bulkInsert index cellsSpec => .ok (bulkAddCells nb cellsSpec index)
  | .replaceSource i src => editCell nb i src
  | .delete i => deleteCell nb i
  | .retype i t => changeCellType nb i t
  | .duplicate i count => duplicateCell nb i count
  | .move f t => moveCell nb f t
  | .split i k => splitCell nb i k
  | .merge i => mergeCells nb i
  | .editCellMeta i m => editCellMetadata nb i m
  | .editDocMeta m => .ok (editMetadata nb m)
  | .editOutputs i outs => editCellOutput nb i outs
  | .clearOutputs i => clearCellOutputs nb i
  | .clearAll => .ok (clearAllOutputs nb)

/-- True exactly on `.error`. -/
def isErr : Except String Notebook → Bool
  | .error _ => true
  | .ok _ => false

/-- The persisted document after one dispatched operation: every method
calls `writeJson` only after all checks and mutations succeed, so a thrown
error leaves the persisted notebook exactly as received. -/
def runOp (nb : Notebook) (op : Op) : Notebook :=
  match applyOp nb op with
  | .ok nb' => nb'
  | .error _ => nb

/-- An index argument within `[0, len)`. -/
def okIdx (i : Int) (len : Nat) : Prop := 0 ≤ i ∧ i < (len : Int)

/-- Number of lines of the (normalized) source of the cell at `i`. -/
def cellLinesAt (nb : Notebook) (i : Int) : Nat :=
  (splitNl (normSource ((nb.cells.get? i.toNat).getD dCell).source)).length

/-- The cell type of the cell at `i`. -/
def cellTypeAt (nb : Notebook) (i : Int) : CellType :=
  ((nb.cells.get? i.toNat).getD dCell).cell_type

/-- The documented precondition of each mutation operation: index in
bounds, line number in bounds for split, a next cell for merge, a code
cell for output editing.  Operations without preconditions never fail. -/
def precondOk (nb : Notebook) : Op → Prop
  | .insert _ _ _ => True
  | .bulkInsert _ _ => True
  | .replaceSource i _ => okIdx i nb.cells.length
  | .delete i => okIdx i nb.cells.length
  | .retype i _ => okIdx i nb.cells.length
  | .duplicate i _ => okIdx i nb.cells.length
  | .move f t => okIdx f nb.cells.length ∧ okIdx t nb.cells.length
  | .split i k => okIdx i nb.cells.length ∧ 0 ≤ k ∧ k < (cellLinesAt nb i : Int)
  | .merge i => 0 ≤ i ∧ i + 1 < (nb.cells.length : Int)
  | .editCellMeta i _ => okIdx i nb.cells.length
  | .editDocMeta _ => True
  | .editOutputs i _ => okIdx i nb.cells.length ∧ cellTypeAt nb i = .code
  | .clearOutputs i => okIdx i nb.cells.length
  | .clearAll => True

instance (nb : Notebook) (op : Op) : Decidable (precondOk nb op) := by
  cases op <;> simp only [precondOk, okIdx] <;> infer_instance

/-- The per-cell shape invariant of the notebook format: code cells carry
both execution fields, non-code cells carry neither. -/
def cellInv (c : Cell) : Prop :=
  if c.cell_type = .code then
    c.execution_count.isSome ∧ c.outputs.isSome
  else
    c.execution_count = none ∧ c.outputs = none

instance (c : Cell) : Decidable (cellInv c) := by
  unfold cellInv; infer_instance

/-- The document-wide shape invariant. -/
def nbInv (nb : Notebook) : Prop := ∀ c ∈ nb.cells, cellInv c

instance (nb : Notebook) : Decidable (nbInv nb) :=
  List.decidableBAll cellInv nb.cells

/-- A small notebook used as a concrete input: a single markdown cell. -/
def nbOne : Notebook :=
  { cells := [newCell .markdown ['a']], metadata := [], nbformat := 4, nbformat_minor := 4 }

/-- A small notebook used as a concrete input: two markdown cells. -/
def nbTwo : Notebook :=
  { cells := [newCell .markdown ['a'], newCell .markdown ['b']],
    metadata := [], nbformat := 4, nbformat_minor := 4 }

/-- A code cell with a recorded execution count and one output. -/
def execCell : Cell :=
  { cell_type := .code
    metadata := []
    source := .str ['x']
    execution_count := some (some 5)
    outputs := some ["out"] }

/-- A one-code-cell notebook with a recorded execution and an output. -/
def nbCode : Notebook :=
  { cells := [execCell], metadata := [], nbformat := 4, nbformat_minor := 4 }

/-- A one-cell notebook whose markdown cell holds the two-line source
`"a\nb"`. -/
def nbAB : Notebook :=
  { cells := [newCell .markdown ['a', '\n', 'b']],
    metadata := [], nbformat := 4, nbformat_minor := 4 }

/-- The normalized source of cell `i` after `split(i, k)` immediately
followed by `merge(i)`, when both operations succeed. -/
def roundTripSource (nb : Notebook) (i k : Int) : Option JStr :=
  match (splitCell nb i k).bind (fun nb1 => mergeCells nb1 i) with
  | .ok nb2 => (nb2.cells.get? i.toNat).map (fun cc => normSource cc.source)
  | .error _ => none

/-- Modelled from the claim's wording: the title suffix taken from the
first line of the source that matches the function-definition or the
class-definition pattern, whichever of the two matches on the earliest
line (on one line the two patterns are mutually exclusive, as no line
starts with both keywords). -/
def claimTitle (source : JStr) : Option TitleSuffix :=
  (splitNl source).findSome? (fun l =>
    match tryAt defKw l with
    | some n => some (.defn n)
    | none =>
      match tryAt classKw l with
      | some n => some (.cls n)
      | none => none)

/-- The amended reading: the `def` pattern's first matching line wins over
any `class` line, regardless of their order in the source. -/
def claimTitleDefFirst (source : JStr) : Option TitleSuffix :=
  match (splitNl source).findSome? (tryAt defKw) with
  | some n => some (.defn n)
  | none =>
    match (splitNl source).findSome? (tryAt classKw) with
    | some n => some (.cls n)
    | none => none

/-- No line of the source consists of the keyword followed by whitespace
only; on such a line the pattern's `\s+`, which may also match the line
break, would capture its name from a later line. -/
def noBareKw (kw : JStr) (source : JStr) : Prop :=
  ∀ l ∈ splitNl source, ¬ (kw <+: l ∧ (l.drop kw.length).all isSpaceChar = true)

instance (kw source : JStr) : Decidable (noBareKw kw source) := by
  unfold noBareKw
  infer_instance

/-- The code-cell source `"class A\ndef f"`: its first pattern-matching
line is a class line, but the source also defines a function later. -/
def exC5 : JStr :=
  ['c', 'l', 'a', 's', 's', ' ', 'A', '\n', 'd', 'e', 'f', ' ', 'f']

/-- Splitting always produces at least one piece. -/
theorem splitNl_ne_nil (s : JStr) : splitNl s ≠ [] := by
  cases s with
  | nil => simp [splitNl]
  | cons c cs =>
    simp only [splitNl]
    cases h : splitNl cs with
    | nil => simp
    | cons l ls =>
      by_cases hc : c = '\n' <;> simp [hc]

/-- Rejoining with a newline inverts splitting at newlines. -/
theorem joinNl_splitNl (s : JStr) : joinNl (splitNl s) = s := by
  induction s with
  | nil => simp [splitNl, joinNl]
  | cons c cs ih =>
    simp only [splitNl]
    cases h : splitNl cs with
    | nil => exact absurd h (splitNl_ne_nil cs)
    | cons l ls =>
      rw [h] at ih
      show joinNl (if c = '\n' then [] :: l :: ls else (c :: l) :: ls) = c :: cs
      by_cases hc : c = '\n'
      · subst hc
        simp only [if_pos rfl]
        cases ls with
        | nil => simpa [joinNl] using congrArg (List.cons '\n') ih
        | cons l2 ls2 => simpa [joinNl] using congrArg (List.cons '\n') ih
      · rw [if_neg hc]
        cases ls with
        | nil => simpa [joinNl] using congrArg (List.cons c) ih
        | cons l2 ls2 => simpa [joinNl] using congrArg (List.cons c) ih

/-- Joining a split-off head block, a newline, and the tail block gives the
join of the whole list, provided the cut is strictly inside the list. -/
theorem joinNl_take_drop : ∀ (ls : List JStr) (k : Nat), 0 < k → k < ls.length →
    joinNl (ls.take k) ++ '\n' :: joinNl (ls.drop k) = joinNl ls := by
  intro ls
  induction ls with
  | nil => intro k _ hk; simp at hk
  | cons a ls' ih =>
    intro k hk0 hklen
    match k, hk0 with
    | 1, _ =>
      have hne : ls' ≠ [] := by
        intro hnil
        rw [hnil] at hklen
        simp at hklen
      cases ls' with
      | nil => exact absurd rfl hne
      | cons b bs => simp [joinNl]
    | (m + 2), _ =>
      have hm : 0 < m + 1 := Nat.succ_pos m
      have hmlen : m + 1 < ls'.length := by
        simp only [List.length_cons] at hklen
        omega
      have htake : (a :: ls').take (m + 2) = a :: ls'.take (m + 1) := rfl
      have hdrop : (a :: ls').drop (m + 2) = ls'.drop (m + 1) := rfl
      rw [htake, hdrop]
      have htail_ne : ls'.take (m + 1) ≠ [] := by
        cases ls' with
        | nil => simp at hmlen
        | cons b bs => simp
      have hls_ne : ls' ≠ [] := by
        cases ls' with
        | nil => simp at hmlen
        | cons b bs => simp
      calc joinNl (a :: ls'.take (m + 1)) ++ '\n' :: joinNl (ls'.drop (m + 1))
          = (a ++ '\n' :: joinNl (ls'.take (m + 1))) ++ '\n' :: joinNl (ls'.drop (m + 1)) := by
            cases htt : ls'.take (m + 1) with
            | nil => exact absurd htt htail_ne
            | cons t ts => rfl
        _ = a ++ '\n' :: (joinNl (ls'.take (m + 1)) ++ '\n' :: joinNl (ls'.drop (m + 1))) := by
            simp [List.append_assoc]
        _ = a ++ '\n' :: joinNl ls' := by rw [ih (m + 1) hm hmlen]
        _ = joinNl (a :: ls') := by
            cases ls' with
            | nil => exact absurd rfl hls_ne
            | cons b bs => rfl

/-- Decompose a list around the element reported by `get?`. -/
theorem take_get_drop {α : Type} : ∀ (l : List α) (i : Nat) (x : α),
    l.get? i = some x → l.take i ++ x :: l.drop (i + 1) = l := by
  intro l
  induction l with
  | nil => intro i x h; simp at h
  | cons a as ih =>
    intro i x h
    cases i with
    | zero => simp_all
    | succ n =>
      simp only [List.get?] at h
      simpa using ih n x h

/-- Dropping to an in-bounds position starts with the element there. -/
theorem drop_cons_of_get? {α : Type} : ∀ (l : List α) (i : Nat) (x : α),
    l.get? i = some x → l.drop i = x :: l.drop (i + 1) := by
  intro l
  induction l with
  | nil => intro i x h; simp at h
  | cons a as ih =>
    intro i x h
    cases i with
    | zero => simp_all
    | succ n =>
      simp only [List.get?] at h
      simpa using ih n x h

/-- Point modification rewrites the list around the modified element. -/
theorem modifyCell_eq : ∀ (l : List Cell) (i : Nat) (f : Cell → Cell) (x : Cell),
    l.get? i = some x → modifyCell l i f = l.take i ++ f x :: l.drop (i + 1) := by
  intro l
  induction l with
  | nil => intro i f x h; simp at h
  | cons a as ih =>
    intro i f x h
    cases i with
    | zero => simp_all [modifyCell]
    | succ n =>
      simp only [List.get?] at h
      simp only [modifyCell, List.take_succ_cons, List.drop_succ_cons, List.cons_append,
        List.cons.injEq, true_and]
      exact ih n f x h

/-- Erasing just past an explicit front block removes the head of the tail. -/
theorem eraseIdx_append_cons {α : Type} : ∀ (xs : List α) (y : α) (ys : List α),
    (xs ++ y :: ys).eraseIdx xs.length = xs ++ ys := by
  intro xs y ys
  induction xs with
  | nil => rfl
  | cons a as ih => simpa [List.eraseIdx] using ih

/-- Evaluation of `splice(start, 0, items)`: at an in-range non-negative start is a plain
insertion at that position. -/
theorem jsInsertAt_eq (start : Int) (items l : List Cell)
    (h0 : 0 ≤ start) (hle : start.toNat ≤ l.length) :
    jsInsertAt start items l = l.take start.toNat ++ items ++ l.drop start.toNat := by
  have hs : spliceStart start l.length = start.toNat := by
    simp only [spliceStart, if_neg (by omega : ¬ start < 0)]
    omega
  simp [jsInsertAt, hs]

/-- Lookup just past an explicit front block sees the head of the tail. -/
theorem get?_append_cons {α : Type} : ∀ (xs : List α) (y : α) (ys : List α),
    (xs ++ y :: ys).get? xs.length = some y := by
  intro xs y ys
  induction xs with
  | nil => rfl
  | cons a as ih => simpa using ih

/-- The `duplicateCell` insertion loop inserts all copies as one block at
the (in-range) start position. -/
theorem dupLoop_eq (dup : Cell) : ∀ (n : Nat) (pos : Int) (cells : List Cell),
    0 ≤ pos → pos.toNat ≤ cells.length →
    dupLoop dup pos n cells =
      cells.take pos.toNat ++ List.replicate n dup ++ cells.drop pos.toNat := by
  intro n
  induction n with
  | zero => intro pos cells _ _; simp [dupLoop]
  | succ m ih =>
    intro pos cells h0 hle
    have hstep : jsInsertAt pos [dup] cells =
        (cells.take pos.toNat ++ [dup]) ++ cells.drop pos.toNat := by
      rw [jsInsertAt_eq pos [dup] cells h0 hle, List.append_assoc]
    have hlenA : (cells.take pos.toNat ++ [dup]).length = pos.toNat + 1 := by
      simp [List.length_take]
      omega
    have hcons : dupLoop dup pos (m + 1) cells =
        dupLoop dup (pos + 1) m (jsInsertAt pos [dup] cells) := rfl
    rw [hcons, hstep]
    have h0' : 0 ≤ pos + 1 := by omega
    have hlen' : (pos + 1).toNat ≤ ((cells.take pos.toNat ++ [dup]) ++ cells.drop pos.toNat).length := by
      simp [List.length_take, List.length_drop]
      omega
    rw [ih (pos + 1) _ h0' hlen']
    have htn : (pos + 1).toNat = (cells.take pos.toNat ++ [dup]).length := by omega
    rw [htn, List.take_left, List.drop_left]
    simp [List.replicate_succ, List.append_assoc]

/-- C2 counterexample: on a one-cell notebook, `insert` with `index = 1`
puts the new cell at position 1 (the splice start is clamped to the
length), not at position `index + 1 = 2`, which does not even exist in the
resulting two-cell sequence. -/
theorem C2_counterexample :
    (addCell nbOne .markdown ['b'] 1).cells.get? 2 = none ∧
    (addCell nbOne .markdown ['b'] 1).cells.get? 1 = some (newCell .markdown ['b']) := by
  decide

/-- C2 (amended): for `-1 ≤ index < len`, `insert(index, type, source)`
places the newly created cell at position `index + 1` (so `index = -1`
places it at position 0), leaving every pre-existing cell present and in
relative order; out-of-range indices are clamped by the splice. -/
theorem C2_insert_position (nb : Notebook) (t : CellType) (src : JStr) (index : Int)
    (h : -1 ≤ index ∧ index < (nb.cells.length : Int)) :
    (addCell nb t src index).cells =
      nb.cells.take (index + 1).toNat ++ newCell t src :: nb.cells.drop (index + 1).toNat ∧
    (addCell nb t src index).cells.get? (index + 1).toNat = some (newCell t src) ∧
    (addCell nb t src index).cells.length = nb.cells.length + 1 := by
  have h0 : 0 ≤ index + 1 := by omega
  have hle : (index + 1).toNat ≤ nb.cells.length := by omega
  have hcells : (addCell nb t src index).cells =
      nb.cells.take (index + 1).toNat ++ newCell t src :: nb.cells.drop (index + 1).toNat := by
    show jsInsertAt (index + 1) [newCell t src] nb.cells = _
    rw [jsInsertAt_eq (index + 1) _ _ h0 hle]
    simp
  refine ⟨hcells, ?_, ?_⟩
  · rw [hcells]
    have hlt : (nb.cells.take (index + 1).toNat).length = (index + 1).toNat := by
      simp [List.length_take]
      omega
    have hg := get?_append_cons (nb.cells.take (index + 1).toNat) (newCell t src)
      (nb.cells.drop (index + 1).toNat)
    rw [hlt] at hg
    exact hg
  · rw [hcells]
    simp [List.length_take, List.length_drop]
    omega

/-- C2 witness: inserting with `index = -1` into a one-cell notebook puts
the new cell at position 0. -/
theorem C2_witness :
    (addCell nbOne .code ['x'] (-1)).cells.get? 0 = some (newCell .code ['x']) :=
  (C2_insert_position nbOne .code ['x'] (-1) (by decide)).2.1

/-- A successful `mergeCells` call: the current cell's source becomes the
newline-joined normalized sources and the next cell is removed. -/
theorem mergeCells_ok (nb : Notebook) (i : Int) (cur next : Cell)
    (h0 : 0 ≤ i) (hcur : nb.cells.get? i.toNat = some cur)
    (hnext : nb.cells.get? (i.toNat + 1) = some next) :
    mergeCells nb i = .ok { nb with
      cells := nb.cells.take i.toNat ++ mergedCell cur next :: nb.cells.drop (i.toNat + 2) } := by
  have hlt1 : i.toNat + 1 < nb.cells.length := (List.get?_eq_some.1 hnext).1
  have hcond : ¬ ((nb.cells.length : Int) - 1 ≤ i ∨ i < 0) := by omega
  have hok : mergeCells nb i = .ok { nb with
      cells := (modifyCell nb.cells i.toNat (fun c => { c with
          source := .str (normSource ((nb.cells.get? i.toNat).getD dCell).source ++
            '\n' :: normSource ((nb.cells.get? (i.toNat + 1)).getD dCell).source) })).eraseIdx
        (i.toNat + 1) } := by
    simp only [mergeCells, if_neg hcond]
  rw [hcur, hnext] at hok
  simp only [Option.getD_some] at hok
  have hmod : modifyCell nb.cells i.toNat (fun c => { c with
      source := .str (normSource cur.source ++ '\n' :: normSource next.source) }) =
      nb.cells.take i.toNat ++ mergedCell cur next :: nb.cells.drop (i.toNat + 1) :=
    modifyCell_eq nb.cells i.toNat _ cur hcur
  have hdrop : nb.cells.drop (i.toNat + 1) = next :: nb.cells.drop (i.toNat + 2) :=
    drop_cons_of_get? nb.cells (i.toNat + 1) next hnext
  have htklen : (nb.cells.take i.toNat ++ [mergedCell cur next]).length = i.toNat + 1 := by
    simp [List.length_take]
    omega
  have herase : (modifyCell nb.cells i.toNat (fun c => { c with
      source := .str (normSource cur.source ++ '\n' :: normSource next.source) })).eraseIdx
      (i.toNat + 1) =
      nb.cells.take i.toNat ++ mergedCell cur next :: nb.cells.drop (i.toNat + 2) := by
    rw [hmod, hdrop]
    have hpre := eraseIdx_append_cons (nb.cells.take i.toNat ++ [mergedCell cur next])
      next (nb.cells.drop (i.toNat + 2))
    rw [htklen] at hpre
    simpa [List.append_assoc] using hpre
  rw [hok, herase]

/-- C6: `merge(index)` fails with the "no next cell" error unless
`0 ≤ index < len - 1`; on success the cell at `index` keeps every field
except its source, which becomes its old normalized source, one newline,
then the next cell's normalized source; the next cell is removed entirely
and the cell count drops by one. -/
theorem C6_merge_spec (nb : Notebook) (i : Int) :
    (¬ (0 ≤ i ∧ i + 1 < (nb.cells.length : Int)) →
      mergeCells nb i = .error "Cannot merge: cell index out of bounds or no next cell") ∧
    (∀ cur next, 0 ≤ i → nb.cells.get? i.toNat = some cur →
      nb.cells.get? (i.toNat + 1) = some next →
      mergeCells nb i = .ok { nb with
        cells := nb.cells.take i.toNat ++ mergedCell cur next :: nb.cells.drop (i.toNat + 2) } ∧
      (nb.cells.take i.toNat ++ mergedCell cur next :: nb.cells.drop (i.toNat + 2)).length + 1 =
        nb.cells.length) := by
  constructor
  · intro hbad
    have hcond : (nb.cells.length : Int) - 1 ≤ i ∨ i < 0 := by omega
    simp only [mergeCells, if_pos hcond]
  · intro cur next h0 hcur hnext
    have hlt1 : i.toNat + 1 < nb.cells.length := (List.get?_eq_some.1 hnext).1
    constructor
    · exact mergeCells_ok nb i cur next h0 hcur hnext
    · simp [List.length_take, List.length_drop]
      omega

/-- C6 witness: merging the first cell of a two-cell notebook joins the
sources with one newline and drops the second cell; on a one-cell
notebook, `merge(0)` fails with the "no next cell" error. -/
theorem C6_witness :
    mergeCells nbTwo 0 = .ok { nbTwo with
      cells := [{ newCell .markdown ['a'] with source := .str ['a', '\n', 'b'] }] } ∧
    mergeCells nbOne 0 = .error "Cannot merge: cell index out of bounds or no next cell" := by
  constructor
  · have h := ((C6_merge_spec nbTwo 0).2 (newCell .markdown ['a']) (newCell .markdown ['b'])
      (by decide) (by decide) (by decide)).1
    simpa [mergedCell, nbTwo, newCell, normSource] using h
  · exact (C6_merge_spec nbOne 0).1 (by decide)

/-- C8: for in-bounds `from` and `to`, `move(from, to)` succeeds and its
result removes the cell at `from` and re-inserts it at position `to` of
the already-shortened sequence; the cell count and the multiset of cells
are preserved, and `move(i, i)` returns the document unchanged. -/
theorem C8_move_spec (nb : Notebook) (f t : Int) (cell : Cell)
    (hf0 : 0 ≤ f) (hcell : nb.cells.get? f.toNat = some cell)
    (ht : 0 ≤ t ∧ t < (nb.cells.length : Int)) :
    moveCell nb f t = .ok { nb with
      cells := (nb.cells.eraseIdx f.toNat).take t.toNat ++
        cell :: (nb.cells.eraseIdx f.toNat).drop t.toNat } ∧
    ((nb.cells.eraseIdx f.toNat).take t.toNat ++
        cell :: (nb.cells.eraseIdx f.toNat).drop t.toNat).length = nb.cells.length ∧
    List.Perm ((nb.cells.eraseIdx f.toNat).take t.toNat ++
        cell :: (nb.cells.eraseIdx f.toNat).drop t.toNat) nb.cells ∧
    (f = t → moveCell nb f t = .ok nb) := by
  have hflt : f.toNat < nb.cells.length := (List.get?_eq_some.1 hcell).1
  have hcond : ¬ ((nb.cells.length : Int) ≤ f ∨ f < 0 ∨
      (nb.cells.length : Int) ≤ t ∨ t < 0) := by omega
  have hlen_erase : (nb.cells.eraseIdx f.toNat).length = nb.cells.length - 1 := by
    rw [List.length_eraseIdx]
    simp [hflt]
  have htle : t.toNat ≤ (nb.cells.eraseIdx f.toNat).length := by omega
  have hok : moveCell nb f t = .ok { nb with
      cells := jsInsertAt t [(nb.cells.get? f.toNat).getD dCell] (nb.cells.eraseIdx f.toNat) } := by
    simp only [moveCell, if_neg hcond]
  rw [hcell] at hok
  simp only [Option.getD_some] at hok
  rw [jsInsertAt_eq t [cell] _ ht.1 htle] at hok
  simp only [List.append_assoc, List.singleton_append] at hok
  have herase : nb.cells.eraseIdx f.toNat = nb.cells.take f.toNat ++ nb.cells.drop (f.toNat + 1) :=
    List.eraseIdx_eq_take_drop_succ nb.cells f.toNat
  have hsplit : nb.cells.take f.toNat ++ cell :: nb.cells.drop (f.toNat + 1) = nb.cells :=
    take_get_drop nb.cells f.toNat cell hcell
  refine ⟨hok, by simp [List.length_take, List.length_drop]; omega, ?_, ?_⟩
  · rw [herase]
    have h1 : List.Perm
        ((nb.cells.take f.toNat ++ nb.cells.drop (f.toNat + 1)).take t.toNat ++
          cell :: (nb.cells.take f.toNat ++ nb.cells.drop (f.toNat + 1)).drop t.toNat)
        (cell :: ((nb.cells.take f.toNat ++ nb.cells.drop (f.toNat + 1)).take t.toNat ++
          (nb.cells.take f.toNat ++ nb.cells.drop (f.toNat + 1)).drop t.toNat)) := List.perm_middle
    have h2 : List.Perm nb.cells
        (cell :: (nb.cells.take f.toNat ++ nb.cells.drop (f.toNat + 1))) := by
      conv_lhs => rw [← hsplit]
      exact List.perm_middle
    rw [List.take_append_drop] at h1
    exact h1.trans h2.symm
  · intro hft
    subst hft
    have htake : (nb.cells.eraseIdx f.toNat).take f.toNat = nb.cells.take f.toNat := by
      rw [herase]
      exact List.take_left' (by simp [List.length_take]; omega)
    have hdrop : (nb.cells.eraseIdx f.toNat).drop f.toNat = nb.cells.drop (f.toNat + 1) := by
      rw [herase]
      exact List.drop_left' (by simp [List.length_take]; omega)
    rw [hok, htake, hdrop, hsplit]

/-- C8 witness: moving cell 0 of a two-cell notebook to position 1 swaps
the two cells, and `move(0, 0)` leaves the notebook unchanged. -/
theorem C8_witness :
    moveCell nbTwo 0 1 = .ok { nbTwo with
      cells := [newCell .markdown ['b'], newCell .markdown ['a']] } ∧
    moveCell nbTwo 0 0 = .ok nbTwo := by
  constructor
  · have h := (C8_move_spec nbTwo 0 1 (newCell .markdown ['a']) (by decide) (by decide)
      (by decide)).1
    simpa [nbTwo] using h
  · exact (C8_move_spec nbTwo 0 0 (newCell .markdown ['a']) (by decide) (by decide)
      (by decide)).2.2.2 rfl

/-- Lookup inside a replicate block. -/
theorem get?_replicate {α : Type} : ∀ (j n : Nat) (a : α), j < n →
    (List.replicate n a).get? j = some a := by
  intro j
  induction j with
  | zero =>
    intro n a hn
    cases n with
    | zero => omega
    | succ m => rfl
  | succ k ih =>
    intro n a hn
    cases n with
    | zero => omega
    | succ m => simpa [List.replicate_succ] using ih m a (by omega)

/-- A successful `duplicateCell` call inserts `count.toNat` copies as one
block immediately after the original. -/
theorem duplicateCell_ok (nb : Notebook) (i count : Int) (orig : Cell)
    (h0 : 0 ≤ i) (hc : nb.cells.get? i.toNat = some orig) :
    duplicateCell nb i count = .ok { nb with
      cells := nb.cells.take (i.toNat + 1) ++ List.replicate count.toNat (dupOf orig) ++
        nb.cells.drop (i.toNat + 1) } := by
  have hlt : i.toNat < nb.cells.length := (List.get?_eq_some.1 hc).1
  have hcond : ¬ ((nb.cells.length : Int) ≤ i ∨ i < 0) := by omega
  have hok : duplicateCell nb i count = .ok { nb with
      cells := dupLoop (dupOf ((nb.cells.get? i.toNat).getD dCell)) (i + 1) count.toNat nb.cells } := by
    simp only [duplicateCell, if_neg hcond]
  rw [hc] at hok
  simp only [Option.getD_some] at hok
  rw [dupLoop_eq (dupOf orig) count.toNat (i + 1) nb.cells (by omega) (by omega)] at hok
  have htn : (i + 1).toNat = i.toNat + 1 := by omega
  rw [htn] at hok
  exact hok

/-- C9: for a valid index and `count = n ≥ 1`, `duplicate(i, n)` succeeds,
inserts exactly `n` copies at positions `i+1 .. i+n`, each copy's source
and type equal the original's, and when the original is a code cell every
copy has empty outputs and null execution count regardless of the
original's execution state. -/
theorem C9_duplicate_spec (nb : Notebook) (i n : Int) (orig : Cell)
    (h0 : 0 ≤ i) (hc : nb.cells.get? i.toNat = some orig) (hn : 1 ≤ n) :
    duplicateCell nb i n = .ok { nb with
      cells := nb.cells.take (i.toNat + 1) ++ List.replicate n.toNat (dupOf orig) ++
        nb.cells.drop (i.toNat + 1) } ∧
    (nb.cells.take (i.toNat + 1) ++ List.replicate n.toNat (dupOf orig) ++
        nb.cells.drop (i.toNat + 1)).length = nb.cells.length + n.toNat ∧
    (∀ j, j < n.toNat →
      (nb.cells.take (i.toNat + 1) ++ List.replicate n.toNat (dupOf orig) ++
        nb.cells.drop (i.toNat + 1)).get? (i.toNat + 1 + j) = some (dupOf orig)) ∧
    (dupOf orig).source = orig.source ∧
    (dupOf orig).cell_type = orig.cell_type ∧
    (orig.cell_type = .code →
      (dupOf orig).outputs = some [] ∧ (dupOf orig).execution_count = some none) := by
  have hlt : i.toNat < nb.cells.length := (List.get?_eq_some.1 hc).1
  have htklen : (nb.cells.take (i.toNat + 1)).length = i.toNat + 1 := by
    simp [List.length_take]
    omega
  refine ⟨duplicateCell_ok nb i n orig h0 hc, ?_, ?_, ?_, ?_, ?_⟩
  · simp [List.length_take, List.length_drop]
    omega
  · intro j hj
    rw [List.append_assoc, List.get?_append_right (by omega)]
    rw [htklen]
    have hsub : i.toNat + 1 + j - (i.toNat + 1) = j := by omega
    rw [hsub, List.get?_append (by simpa using hj)]
    exact get?_replicate j n.toNat (dupOf orig) hj
  · by_cases hcode : orig.cell_type = .code <;> simp [dupOf, hcode]
  · by_cases hcode : orig.cell_type = .code <;> simp [dupOf, hcode]
  · intro hcode
    simp [dupOf, hcode]

/-- C9 witness: duplicating the executed code cell of `nbCode` twice
inserts two reset copies right after it. -/
theorem C9_witness :
    duplicateCell nbCode 0 2 = .ok { nbCode with
      cells := [execCell, dupOf execCell, dupOf execCell] } ∧
    dupOf execCell = { execCell with execution_count := some none, outputs := some [] } := by
  constructor
  · have h := (C9_duplicate_spec nbCode 0 2 execCell (by decide) (by decide) (by decide)).1
    simpa [nbCode] using h
  · decide

/-- C10: at the tool interface, `duplicate` with `count = 0` does not fail
and does not leave the document unchanged: the falsy zero is coerced by
`args.count || 1` to the default 1, so exactly one copy is inserted. -/
theorem C10_duplicate_zero_count (nb : Notebook) (i : Int) (orig : Cell)
    (h0 : 0 ≤ i) (hc : nb.cells.get? i.toNat = some orig) :
    dupCountArg (some 0) = 1 ∧
    duplicateCell nb i (dupCountArg (some 0)) = .ok { nb with
      cells := nb.cells.take (i.toNat + 1) ++ dupOf orig :: nb.cells.drop (i.toNat + 1) } ∧
    (nb.cells.take (i.toNat + 1) ++ dupOf orig :: nb.cells.drop (i.toNat + 1)).length =
      nb.cells.length + 1 := by
  have hlt : i.toNat < nb.cells.length := (List.get?_eq_some.1 hc).1
  refine ⟨rfl, ?_, ?_⟩
  · have h := duplicateCell_ok nb i (dupCountArg (some 0)) orig h0 hc
    simpa using h
  · simp [List.length_take, List.length_drop]
    omega

/-- C10 witness: duplicating cell 0 of a one-cell notebook with the
interface count 0 yields a two-cell notebook. -/
theorem C10_witness :
    duplicateCell nbOne 0 (dupCountArg (some 0)) = .ok { nbOne with
      cells := [newCell .markdown ['a'], newCell .markdown ['a']] } := by
  have h := (C10_duplicate_zero_count nbOne 0 (newCell .markdown ['a'])
    (by decide) (by decide)).2.1
  simpa [nbOne, dupOf, newCell] using h

/-- A successful `splitCell` call: lines `[0, k)` stay (rejoined) in the
original cell, lines `[k, end)` move to a fresh cell of the same type
inserted immediately after. -/
theorem splitCell_ok (nb : Notebook) (i k : Int) (c : Cell)
    (h0 : 0 ≤ i) (hc : nb.cells.get? i.toNat = some c)
    (hk0 : 0 ≤ k) (hklt : k < ((splitNl (normSource c.source)).length : Int)) :
    splitCell nb i k = .ok { nb with
      cells := nb.cells.take i.toNat ++
        { c with source := .str (joinNl ((splitNl (normSource c.source)).take k.toNat)) } ::
        newCell c.cell_type (joinNl ((splitNl (normSource c.source)).drop k.toNat)) ::
        nb.cells.drop (i.toNat + 1) } := by
  have hlt : i.toNat < nb.cells.length := (List.get?_eq_some.1 hc).1
  have hcond1 : ¬ ((nb.cells.length : Int) ≤ i ∨ i < 0) := by omega
  have hcond2 : ¬ (((splitNl (normSource c.source)).length : Int) ≤ k ∨ k < 0) := by omega
  have hok : splitCell nb i k = .ok { nb with
      cells := jsInsertAt (i + 1)
        [newCell c.cell_type (joinNl ((splitNl (normSource c.source)).drop k.toNat))]
        (modifyCell nb.cells i.toNat (fun cc => { cc with
          source := .str (joinNl ((splitNl (normSource c.source)).take k.toNat)) })) } := by
    simp only [splitCell, hc, Option.getD_some, if_neg hcond1, if_neg hcond2]
  rw [hok]
  have hmod : modifyCell nb.cells i.toNat (fun cc => { cc with
      source := .str (joinNl ((splitNl (normSource c.source)).take k.toNat)) }) =
      nb.cells.take i.toNat ++
        { c with source := .str (joinNl ((splitNl (normSource c.source)).take k.toNat)) } ::
        nb.cells.drop (i.toNat + 1) :=
    modifyCell_eq nb.cells i.toNat _ c hc
  rw [hmod]
  have htklen : (nb.cells.take i.toNat ++
      [{ c with source := .str (joinNl ((splitNl (normSource c.source)).take k.toNat)) }]).length =
      i.toNat + 1 := by
    simp [List.length_take]
    omega
  have hmutlen : (nb.cells.take i.toNat ++
      { c with source := .str (joinNl ((splitNl (normSource c.source)).take k.toNat)) } ::
      nb.cells.drop (i.toNat + 1)).length = nb.cells.length := by
    simp [List.length_take, List.length_drop]
    omega
  have hins := jsInsertAt_eq (i + 1)
    [newCell c.cell_type (joinNl ((splitNl (normSource c.source)).drop k.toNat))]
    (nb.cells.take i.toNat ++
      { c with source := .str (joinNl ((splitNl (normSource c.source)).take k.toNat)) } ::
      nb.cells.drop (i.toNat + 1)) (by omega) (by rw [hmutlen]; omega)
  rw [hins]
  have htn1 : (i + 1).toNat = i.toNat + 1 := by omega
  rw [htn1]
  have hA : nb.cells.take i.toNat ++
      { c with source := .str (joinNl ((splitNl (normSource c.source)).take k.toNat)) } ::
      nb.cells.drop (i.toNat + 1) =
      (nb.cells.take i.toNat ++
        [{ c with source := .str (joinNl ((splitNl (normSource c.source)).take k.toNat)) }]) ++
      nb.cells.drop (i.toNat + 1) := by
    simp [List.append_assoc]
  rw [hA, List.take_left' htklen, List.drop_left' htklen]
  simp [List.append_assoc]

/-- C1 (amended): for a valid cell index and any line number `k` with
`1 ≤ k < lineCount`, `split(i, k)` immediately followed by `merge(i)`
restores the original cell's normalized source exactly and leaves every
other cell unchanged; the amendment excludes `k = 0`, where the empty
first part makes the rejoined source gain a leading newline. -/
theorem C1_split_merge_roundtrip (nb : Notebook) (i k : Int) (c : Cell)
    (h0 : 0 ≤ i) (hc : nb.cells.get? i.toNat = some c)
    (hk1 : 1 ≤ k) (hklt : k < ((splitNl (normSource c.source)).length : Int)) :
    (splitCell nb i k).bind (fun nb1 => mergeCells nb1 i) = .ok { nb with
      cells := nb.cells.take i.toNat ++ { c with source := .str (normSource c.source) } ::
        nb.cells.drop (i.toNat + 1) } := by
  have hlt : i.toNat < nb.cells.length := (List.get?_eq_some.1 hc).1
  have htake_len : (nb.cells.take i.toNat).length = i.toNat := by
    simp [List.length_take]
    omega
  rw [splitCell_ok nb i k c h0 hc (by omega) hklt]
  have hbindok : ∀ (x : Notebook) (f : Notebook → Except String Notebook),
      (Except.ok x : Except String Notebook).bind f = f x := fun _ _ => rfl
  rw [hbindok]
  set modC : Cell :=
    { c with source := .str (joinNl ((splitNl (normSource c.source)).take k.toNat)) } with hmodC
  set newC : Cell :=
    newCell c.cell_type (joinNl ((splitNl (normSource c.source)).drop k.toNat)) with hnewC
  have hcur : (nb.cells.take i.toNat ++ modC :: newC :: nb.cells.drop (i.toNat + 1)).get?
      i.toNat = some modC := by
    have hg := get?_append_cons (nb.cells.take i.toNat) modC (newC :: nb.cells.drop (i.toNat + 1))
    rw [htake_len] at hg
    exact hg
  have hnext : (nb.cells.take i.toNat ++ modC :: newC :: nb.cells.drop (i.toNat + 1)).get?
      (i.toNat + 1) = some newC := by
    have hg := get?_append_cons (nb.cells.take i.toNat ++ [modC]) newC
      (nb.cells.drop (i.toNat + 1))
    rw [List.length_append, htake_len] at hg
    simpa [List.append_assoc] using hg
  have hmerge := mergeCells_ok { nb with
      cells := nb.cells.take i.toNat ++ modC :: newC :: nb.cells.drop (i.toNat + 1) }
    i modC newC h0 hcur hnext
  rw [hmerge]
  have hjoin : normSource modC.source ++ '\n' :: normSource newC.source = normSource c.source := by
    rw [hmodC, hnewC]
    show joinNl ((splitNl (normSource c.source)).take k.toNat) ++
      '\n' :: joinNl ((splitNl (normSource c.source)).drop k.toNat) = normSource c.source
    rw [joinNl_take_drop (splitNl (normSource c.source)) k.toNat (by omega) (by omega)]
    exact joinNl_splitNl (normSource c.source)
  have hmergedC : mergedCell modC newC = { c with source := .str (normSource c.source) } := by
    rw [mergedCell, hjoin]
  have htake2 : (nb.cells.take i.toNat ++ modC :: newC :: nb.cells.drop (i.toNat + 1)).take
      i.toNat = nb.cells.take i.toNat :=
    List.take_left' htake_len
  have hdrop2 : (nb.cells.take i.toNat ++ modC :: newC :: nb.cells.drop (i.toNat + 1)).drop
      (i.toNat + 2) = nb.cells.drop (i.toNat + 1) := by
    have hAlen : (nb.cells.take i.toNat ++ [modC, newC]).length = i.toNat + 2 := by
      simp [List.length_take]
      omega
    have hd : ((nb.cells.take i.toNat ++ [modC, newC]) ++
        nb.cells.drop (i.toNat + 1)).drop (i.toNat + 2) = nb.cells.drop (i.toNat + 1) :=
      List.drop_left' hAlen
    simpa [List.append_assoc] using hd
  rw [htake2, hdrop2, hmergedC]

/-- C1 counterexample: splitting the two-line source `"a\nb"` at line 0
and merging back yields `"\na\nb"`, not the original `"a\nb"`: the claim
fails for line number 0, which its range `0 ≤ k < lineCount` includes. -/
theorem C1_counterexample :
    roundTripSource nbAB 0 0 = some ['\n', 'a', '\n', 'b'] ∧
    normSource ((nbAB.cells.get? 0).getD dCell).source = ['a', '\n', 'b'] ∧
    (['\n', 'a', '\n', 'b'] : JStr) ≠ ['a', '\n', 'b'] := by
  decide

/-- C1 witness: splitting `"a\nb"` at line 1 and merging restores the
one-cell notebook exactly. -/
theorem C1_witness :
    (splitCell nbAB 0 1).bind (fun nb1 => mergeCells nb1 0) = .ok nbAB := by
  have h := C1_split_merge_roundtrip nbAB 0 1 (newCell .markdown ['a', '\n', 'b'])
    (by decide) (by decide) (by decide) (by decide)
  simpa [nbAB, newCell, normSource] using h

/-- C3: whenever an operation's documented precondition fails (index out
of bounds, line number out of bounds, no next cell, target not a code
cell), the dispatched method throws before its `writeJson` call, so the
operation reports an error and the persisted document equals the document
as received, for every mutation operation. -/
theorem C3_failed_precondition_no_mutation (nb : Notebook) (op : Op)
    (h : ¬ precondOk nb op) :
    isErr (applyOp nb op) = true ∧ runOp nb op = nb := by
  cases op with
  | insert index t src => exact absurd trivial h
  | bulkInsert index cellsSpec => exact absurd trivial h
  | editDocMeta m => exact absurd trivial h
  | clearAll => exact absurd trivial h
  | replaceSource i src =>
    have hcond : (nb.cells.length : Int) ≤ i ∨ i < 0 := by
      simp only [precondOk, okIdx] at h
      omega
    exact ⟨by simp only [applyOp, editCell, if_pos hcond, isErr],
      by simp only [runOp, applyOp, editCell, if_pos hcond]⟩
  | delete i =>
    have hcond : (nb.cells.length : Int) ≤ i ∨ i < 0 := by
      simp only [precondOk, okIdx] at h
      omega
    exact ⟨by simp only [applyOp, deleteCell, if_pos hcond, isErr],
      by simp only [runOp, applyOp, deleteCell, if_pos hcond]⟩
  | retype i t =>
    have hcond : (nb.cells.length : Int) ≤ i ∨ i < 0 := by
      simp only [precondOk, okIdx] at h
      omega
    exact ⟨by simp only [applyOp, changeCellType, if_pos hcond, isErr],
      by simp only [runOp, applyOp, changeCellType, if_pos hcond]⟩
  | duplicate i count =>
    have hcond : (nb.cells.length : Int) ≤ i ∨ i < 0 := by
      simp only [precondOk, okIdx] at h
      omega
    exact ⟨by simp only [applyOp, duplicateCell, if_pos hcond, isErr],
      by simp only [runOp, applyOp, duplicateCell, if_pos hcond]⟩
  | editCellMeta i m =>
    have hcond : (nb.cells.length : Int) ≤ i ∨ i < 0 := by
      simp only [precondOk, okIdx] at h
      omega
    exact ⟨by simp only [applyOp, editCellMetadata, if_pos hcond, isErr],
      by simp only [runOp, applyOp, editCellMetadata, if_pos hcond]⟩
  | clearOutputs i =>
    have hcond : (nb.cells.length : Int) ≤ i ∨ i < 0 := by
      simp only [precondOk, okIdx] at h
      omega
    exact ⟨by simp only [applyOp, clearCellOutputs, if_pos hcond, isErr],
      by simp only [runOp, applyOp, clearCellOutputs, if_pos hcond]⟩
  | merge i =>
    have hcond : (nb.cells.length : Int) - 1 ≤ i ∨ i < 0 := by
      simp only [precondOk] at h
      omega
    exact ⟨by simp only [applyOp, mergeCells, if_pos hcond, isErr],
      by simp only [runOp, applyOp, mergeCells, if_pos hcond]⟩
  | move f t =>
    have hcond : (nb.cells.length : Int) ≤ f ∨ f < 0 ∨
        (nb.cells.length : Int) ≤ t ∨ t < 0 := by
      simp only [precondOk, okIdx] at h
      omega
    exact ⟨by simp only [applyOp, moveCell, if_pos hcond, isErr],
      by simp only [runOp, applyOp, moveCell, if_pos hcond]⟩
  | split i k =>
    by_cases hidx : okIdx i nb.cells.length
    · have hcond1 : ¬ ((nb.cells.length : Int) ≤ i ∨ i < 0) := by
        simp only [okIdx] at hidx
        omega
      have hcond2 : ((splitNl (normSource ((nb.cells.get? i.toNat).getD dCell).source)).length :
          Int) ≤ k ∨ k < 0 := by
        simp only [precondOk, cellLinesAt] at h
        have hnk := fun hk0 hklt => h ⟨hidx, hk0, hklt⟩
        by_cases hk0 : 0 ≤ k
        · left
          by_contra hlt
          exact (hnk hk0 (by omega)).elim
        · right
          omega
      exact ⟨by simp only [applyOp, splitCell, if_neg hcond1, if_pos hcond2, isErr],
        by simp only [runOp, applyOp, splitCell, if_neg hcond1, if_pos hcond2]⟩
    · have hcond1 : (nb.cells.length : Int) ≤ i ∨ i < 0 := by
        simp only [okIdx] at hidx
        omega
      exact ⟨by simp only [applyOp, splitCell, if_pos hcond1, isErr],
        by simp only [runOp, applyOp, splitCell, if_pos hcond1]⟩
  | editOutputs i outs =>
    by_cases hidx : okIdx i nb.cells.length
    · have hcond1 : ¬ ((nb.cells.length : Int) ≤ i ∨ i < 0) := by
        simp only [okIdx] at hidx
        omega
      have hcond2 : ((nb.cells.get? i.toNat).getD dCell).cell_type ≠ .code := by
        simp only [precondOk, cellTypeAt] at h
        intro hcode
        exact h ⟨hidx, hcode⟩
      exact ⟨by simp only [applyOp, editCellOutput, if_neg hcond1, if_pos hcond2, isErr],
        by simp only [runOp, applyOp, editCellOutput, if_neg hcond1, if_pos hcond2]⟩
    · have hcond1 : (nb.cells.length : Int) ≤ i ∨ i < 0 := by
        simp only [okIdx] at hidx
        omega
      exact ⟨by simp only [applyOp, editCellOutput, if_pos hcond1, isErr],
        by simp only [runOp, applyOp, editCellOutput, if_pos hcond1]⟩

/-- C3 witness: deleting cell 5 of a one-cell notebook fails and leaves
the persisted notebook unchanged. -/
theorem C3_witness :
    isErr (applyOp nbOne (.delete 5)) = true ∧ runOp nbOne (.delete 5) = nbOne :=
  C3_failed_precondition_no_mutation nbOne (.delete 5) (by decide)

/-- Freshly constructed cells satisfy the shape invariant. -/
theorem cellInv_newCell (t : CellType) (src : JStr) : cellInv (newCell t src) := by
  cases t <;> simp [cellInv, newCell]

/-- Updating only the source of a cell preserves the shape invariant. -/
theorem cellInv_source_update (c : Cell) (s : Source) (h : cellInv c) :
    cellInv { c with source := s } := by
  by_cases hc : c.cell_type = .code <;> simp_all [cellInv]

/-- Updating only the metadata of a cell preserves the shape invariant. -/
theorem cellInv_metadata_update (c : Cell) (m : Metadata) (h : cellInv c) :
    cellInv { c with metadata := m } := by
  by_cases hc : c.cell_type = .code <;> simp_all [cellInv]

/-- The reset applied by `clearCellOutputs`/`clearAllOutputs` preserves
the shape invariant. -/
theorem cellInv_clear (c : Cell) (h : cellInv c) :
    cellInv (if c.cell_type = .code then
      { c with outputs := some [], execution_count := some none } else c) := by
  by_cases hc : c.cell_type = .code <;> simp_all [cellInv]

/-- The duplicate of an invariant-satisfying cell satisfies the invariant. -/
theorem cellInv_dupOf (c : Cell) (h : cellInv c) : cellInv (dupOf c) := by
  by_cases hc : c.cell_type = .code <;> simp_all [cellInv, dupOf]

/-- All cells of an in-bounds point modification satisfy the invariant
when the original cells do and the modified cell does. -/
theorem cellInv_modifyCell_at (l : List Cell) (i : Nat) (f : Cell → Cell) (x : Cell)
    (hx : l.get? i = some x) (hl : ∀ c ∈ l, cellInv c) (hfx : cellInv (f x)) :
    ∀ c ∈ modifyCell l i f, cellInv c := by
  rw [modifyCell_eq l i f x hx]
  intro c hc
  rcases List.mem_append.1 hc with htk | hcons
  · exact hl c (List.take_subset i l htk)
  · rcases List.mem_cons.1 hcons with rfl | hdp
    · exact hfx
    · exact hl c (List.drop_subset (i + 1) l hdp)

/-- Membership in a clamped splice insertion comes from the items or the
original list. -/
theorem mem_jsInsertAt (start : Int) (items l : List Cell) (c : Cell)
    (hc : c ∈ jsInsertAt start items l) : c ∈ items ∨ c ∈ l := by
  simp only [jsInsertAt] at hc
  rcases List.mem_append.1 hc with h1 | h2
  · rcases List.mem_append.1 h1 with htk | hit
    · exact Or.inr (List.take_subset _ l htk)
    · exact Or.inl hit
  · exact Or.inr (List.drop_subset _ l h2)

/-- C7: in a document where every code cell carries both execution fields
and no non-code cell carries either, every mutation operation that
succeeds (insert, bulk insert, retype, duplicate, split, merge, output
clearing and editing, source replacement, metadata edits, move, delete)
yields a document in which the invariant still holds. -/
theorem C7_invariant_preserved (nb : Notebook) (op : Op) (nb' : Notebook)
    (hinv : nbInv nb) (hok : applyOp nb op = .ok nb') : nbInv nb' := by
  cases op with
  | insert index t src =>
    simp only [applyOp, Except.ok.injEq] at hok
    subst hok
    intro c hc
    rcases mem_jsInsertAt _ _ _ c hc with hit | hmem
    · rcases List.mem_singleton.1 hit with rfl
      exact cellInv_newCell t src
    · exact hinv c hmem
  | bulkInsert index cellsSpec =>
    simp only [applyOp, Except.ok.injEq] at hok
    subst hok
    intro c hc
    rcases mem_jsInsertAt _ _ _ c hc with hit | hmem
    · rcases List.mem_map.1 hit with ⟨p, _, rfl⟩
      exact cellInv_newCell p.1 p.2
    · exact hinv c hmem
  | editDocMeta m =>
    simp only [applyOp, Except.ok.injEq] at hok
    subst hok
    exact hinv
  | clearAll =>
    simp only [applyOp, Except.ok.injEq] at hok
    subst hok
    intro c hc
    rcases List.mem_map.1 hc with ⟨x, hx, rfl⟩
    exact cellInv_clear x (hinv x hx)
  | replaceSource i src =>
    by_cases hcond : (nb.cells.length : Int) ≤ i ∨ i < 0
    · simp only [applyOp, editCell, if_pos hcond] at hok
      exact Except.noConfusion hok
    · simp only [applyOp, editCell, if_neg hcond, Except.ok.injEq] at hok
      subst hok
      have hlt : i.toNat < nb.cells.length := by omega
      have hx := List.get?_eq_get hlt
      exact cellInv_modifyCell_at nb.cells i.toNat _ _ hx hinv
        (cellInv_source_update _ _ (hinv _ (List.get_mem nb.cells _ _)))
  | delete i =>
    by_cases hcond : (nb.cells.length : Int) ≤ i ∨ i < 0
    · simp only [applyOp, deleteCell, if_pos hcond] at hok
      exact Except.noConfusion hok
    · simp only [applyOp, deleteCell, if_neg hcond, Except.ok.injEq] at hok
      subst hok
      intro c hc
      exact hinv c (List.eraseIdx_subset _ _ hc)
  | retype i t =>
    by_cases hcond : (nb.cells.length : Int) ≤ i ∨ i < 0
    · simp only [applyOp, changeCellType, if_pos hcond] at hok
      exact Except.noConfusion hok
    · simp only [applyOp, changeCellType, if_neg hcond, Except.ok.injEq] at hok
      subst hok
      have hlt : i.toNat < nb.cells.length := by omega
      have hx := List.get?_eq_get hlt
      refine cellInv_modifyCell_at nb.cells i.toNat _ _ hx hinv ?_
      by_cases ht : t = .code <;> simp [cellInv, ht]
  | duplicate i count =>
    by_cases hcond : (nb.cells.length : Int) ≤ i ∨ i < 0
    · simp only [applyOp, duplicateCell, if_pos hcond] at hok
      exact Except.noConfusion hok
    · have hlt : i.toNat < nb.cells.length := by omega
      have hx := List.get?_eq_get hlt
      have hdup := duplicateCell_ok nb i count (nb.cells.get ⟨i.toNat, hlt⟩) (by omega) hx
      simp only [applyOp] at hok
      rw [hdup] at hok
      simp only [Except.ok.injEq] at hok
      subst hok
      intro c hc
      rcases List.mem_append.1 hc with h1 | hdp
      · rcases List.mem_append.1 h1 with htk | hrep
        · exact hinv c (List.take_subset _ _ htk)
        · rcases List.eq_of_mem_replicate hrep with rfl
          exact cellInv_dupOf _ (hinv _ (List.get_mem nb.cells i.toNat hlt))
      · exact hinv c (List.drop_subset _ _ hdp)
  | move f t =>
    by_cases hcond : (nb.cells.length : Int) ≤ f ∨ f < 0 ∨
        (nb.cells.length : Int) ≤ t ∨ t < 0
    · simp only [applyOp, moveCell, if_pos hcond] at hok
      exact Except.noConfusion hok
    · simp only [applyOp, moveCell, if_neg hcond, Except.ok.injEq] at hok
      subst hok
      intro c hc
      rcases mem_jsInsertAt _ _ _ c hc with hit | hmem
      · rcases List.mem_singleton.1 hit with rfl
        have hlt : f.toNat < nb.cells.length := by omega
        rw [List.get?_eq_get hlt]
        simp only [Option.getD_some]
        exact hinv _ (List.get_mem nb.cells f.toNat hlt)
      · exact hinv c (List.eraseIdx_subset _ _ hmem)
  | split i k =>
    by_cases hcond : (nb.cells.length : Int) ≤ i ∨ i < 0
    · simp only [applyOp, splitCell, if_pos hcond] at hok
      exact Except.noConfusion hok
    · by_cases hcond2 : ((splitNl (normSource ((nb.cells.get? i.toNat).getD dCell).source)).length :
          Int) ≤ k ∨ k < 0
      · simp only [applyOp, splitCell, if_neg hcond, if_pos hcond2] at hok
        exact Except.noConfusion hok
      · simp only [applyOp, splitCell, if_neg hcond, if_neg hcond2, Except.ok.injEq] at hok
        subst hok
        have hlt : i.toNat < nb.cells.length := by omega
        have hx := List.get?_eq_get hlt
        intro c hc
        rcases mem_jsInsertAt _ _ _ c hc with hit | hmem
        · rcases List.mem_singleton.1 hit with rfl
          exact cellInv_newCell _ _
        · exact cellInv_modifyCell_at nb.cells i.toNat _ _ hx hinv
            (cellInv_source_update (nb.cells.get ⟨i.toNat, hlt⟩) _
              (hinv (nb.cells.get ⟨i.toNat, hlt⟩) (List.get_mem nb.cells i.toNat hlt))) c hmem
  | merge i =>
    by_cases hcond : (nb.cells.length : Int) - 1 ≤ i ∨ i < 0
    · simp only [applyOp, mergeCells, if_pos hcond] at hok
      exact Except.noConfusion hok
    · simp only [applyOp, mergeCells, if_neg hcond, Except.ok.injEq] at hok
      subst hok
      have hlt : i.toNat < nb.cells.length := by omega
      have hx := List.get?_eq_get hlt
      intro c hc
      have hc' := List.eraseIdx_subset _ _ hc
      exact cellInv_modifyCell_at nb.cells i.toNat _ _ hx hinv
        (cellInv_source_update (nb.cells.get ⟨i.toNat, hlt⟩) _
          (hinv (nb.cells.get ⟨i.toNat, hlt⟩) (List.get_mem nb.cells i.toNat hlt))) c hc'
  | editCellMeta i m =>
    by_cases hcond : (nb.cells.length : Int) ≤ i ∨ i < 0
    · simp only [applyOp, editCellMetadata, if_pos hcond] at hok
      exact Except.noConfusion hok
    · simp only [applyOp, editCellMetadata, if_neg hcond, Except.ok.injEq] at hok
      subst hok
      have hlt : i.toNat < nb.cells.length := by omega
      have hx := List.get?_eq_get hlt
      exact cellInv_modifyCell_at nb.cells i.toNat _ _ hx hinv
        (cellInv_metadata_update _ _ (hinv _ (List.get_mem nb.cells _ _)))
  | clearOutputs i =>
    by_cases hcond : (nb.cells.length : Int) ≤ i ∨ i < 0
    · simp only [applyOp, clearCellOutputs, if_pos hcond] at hok
      exact Except.noConfusion hok
    · simp only [applyOp, clearCellOutputs, if_neg hcond, Except.ok.injEq] at hok
      subst hok
      have hlt : i.toNat < nb.cells.length := by omega
      have hx := List.get?_eq_get hlt
      exact cellInv_modifyCell_at nb.cells i.toNat _ _ hx hinv
        (cellInv_clear _ (hinv _ (List.get_mem nb.cells _ _)))
  | editOutputs i outs =>
    by_cases hcond : (nb.cells.length : Int) ≤ i ∨ i < 0
    · simp only [applyOp, editCellOutput, if_pos hcond] at hok
      exact Except.noConfusion hok
    · by_cases hcode : ((nb.cells.get? i.toNat).getD dCell).cell_type ≠ .code
      · simp only [applyOp, editCellOutput, if_neg hcond, if_pos hcode] at hok
        exact Except.noConfusion hok
      · simp only [applyOp, editCellOutput, if_neg hcond, if_neg hcode, Except.ok.injEq] at hok
        subst hok
        have hlt : i.toNat < nb.cells.length := by omega
        have hx := List.get?_eq_get hlt
        have hmem := List.get_mem nb.cells i.toNat hlt
        have hcinv := hinv _ hmem
        rw [hx] at hcode
        simp only [Option.getD_some, not_not] at hcode
        refine cellInv_modifyCell_at nb.cells i.toNat _ _ hx hinv ?_
        simp only [cellInv, hcode, if_pos] at hcinv ⊢
        exact ⟨hcinv.1, rfl⟩

/-- C7 witness: retyping the executed code cell of `nbCode` to markdown
yields a document that still satisfies the shape invariant. -/
theorem C7_witness : nbInv (runOp nbCode (Op.retype 0 .markdown)) :=
  C7_invariant_preserved nbCode (Op.retype 0 .markdown)
    (runOp nbCode (Op.retype 0 .markdown)) (by decide) (by rfl)

/-- Evaluation of `Char.ofNat` on a plain lowercase-letter code point. -/
theorem charOfNat_toNat (n : Nat) (h1 : 97 ≤ n) (h2 : n ≤ 122) : (Char.ofNat n).toNat = n := by
  have hval : n.isValidChar := by
    left
    omega
  simp [Char.ofNat, dif_pos hval, Char.toNat, Char.ofNatAux, UInt32.toNat, UInt32.ofNatCore]

/-- Lowercasing produces a newline only from a newline. -/
theorem toLower_eq_nl (c : Char) : c.toLower = '\n' ↔ c = '\n' := by
  constructor
  · intro h
    unfold Char.toLower at h
    simp only [] at h
    by_cases hc : c.toNat ≥ 65 ∧ c.toNat ≤ 90
    · rw [if_pos hc] at h
      have hval := charOfNat_toNat (c.toNat + 32) (by omega) (by omega)
      have h10 : ('\n' : Char).toNat = 10 := rfl
      have hcast := congrArg Char.toNat h
      rw [hval, h10] at hcast
      omega
    · rwa [if_neg hc] at h
  · intro h
    subst h
    rfl

/-- Lowercasing a string neither creates nor destroys newline characters. -/
theorem mem_jsLower_nl (s : JStr) : '\n' ∈ jsLower s ↔ '\n' ∈ s := by
  simp only [jsLower, List.mem_map]
  constructor
  · rintro ⟨a, ha, hal⟩
    rwa [(toLower_eq_nl a).1 hal] at ha
  · intro h
    exact ⟨'\n', h, rfl⟩

/-- Case folding preserves newline-freeness of the query. -/
theorem caseFold_nl (cs : Bool) (q : JStr) (h : '\n' ∉ q) : '\n' ∉ caseFold cs q := by
  cases cs with
  | true => simpa [caseFold] using h
  | false =>
    intro hm
    rw [show caseFold false q = jsLower q from rfl] at hm
    exact h ((mem_jsLower_nl q).1 hm)

/-- Unfolding of `splitNl` on a cons, given the split of the tail. -/
theorem splitNl_cons_eq (c : Char) (cs : JStr) (m : JStr) (ms : List JStr)
    (h : splitNl cs = m :: ms) :
    splitNl (c :: cs) = if c = '\n' then [] :: m :: ms else (c :: m) :: ms := by
  show (match splitNl cs with
    | [] => [[]]
    | l :: ls => if c = '\n' then [] :: l :: ls else (c :: l) :: ls) = _
  rw [h]

/-- Lowercasing commutes with splitting at newlines. -/
theorem splitNl_jsLower (s : JStr) : splitNl (jsLower s) = (splitNl s).map jsLower := by
  induction s with
  | nil => rfl
  | cons c cs ih =>
    have hcons : jsLower (c :: cs) = c.toLower :: jsLower cs := rfl
    rw [hcons]
    cases hsp : splitNl cs with
    | nil => exact absurd hsp (splitNl_ne_nil cs)
    | cons m ms =>
      rw [hsp] at ih
      have hL := splitNl_cons_eq c.toLower (jsLower cs) (jsLower m) (List.map jsLower ms) ih
      have hR := splitNl_cons_eq c cs m ms hsp
      by_cases hc : c = '\n'
      · subst hc
        rw [hL, hR, if_pos (show ('\n' : Char).toLower = '\n' from rfl), if_pos rfl]
        rfl
      · have hl : ¬ c.toLower = '\n' := fun hh => hc ((toLower_eq_nl c).1 hh)
        rw [hL, hR, if_neg hl, if_neg hc]
        rfl

/-- Case folding commutes with splitting at newlines. -/
theorem splitNl_caseFold (cs : Bool) (s : JStr) :
    splitNl (caseFold cs s) = (splitNl s).map (caseFold cs) := by
  cases cs with
  | true =>
    have hcf : caseFold true = fun x : JStr => x := funext (fun x => rfl)
    rw [hcf, List.map_id']
  | false =>
    have hcf : caseFold false = jsLower := funext (fun x => rfl)
    rw [hcf]
    exact splitNl_jsLower s

/-- A prefix of `A ++ c :: B` not containing `c` is a prefix of `A`. -/
theorem prefix_drop_sep {α : Type} {c : α} : ∀ {q : List α}, ∀ {A B : List α}, c ∉ q →
    q <+: A ++ c :: B → q <+: A := by
  intro q
  induction q with
  | nil => intro A B _ _; exact List.nil_prefix
  | cons x q' ih =>
    intro A B hc h
    cases A with
    | nil =>
      rw [List.nil_append] at h
      rcases List.cons_prefix_cons.1 h with ⟨rfl, _⟩
      exact absurd (List.mem_cons_self x q') hc
    | cons a A' =>
      rw [List.cons_append] at h
      rcases List.cons_prefix_cons.1 h with ⟨rfl, htail⟩
      have hc' : c ∉ q' := fun hm => hc (List.mem_cons_of_mem x hm)
      exact List.cons_prefix_cons.2 ⟨rfl, ih hc' htail⟩

/-- An infix of `A ++ c :: B` not containing the separator `c` lies
entirely inside `A` or entirely inside `B`. -/
theorem infix_split_sep {α : Type} {c : α} {q B : List α} (hc : c ∉ q) :
    ∀ A, q <:+: A ++ c :: B → q <:+: A ∨ q <:+: B := by
  intro A
  induction A with
  | nil =>
    intro h
    rw [List.nil_append] at h
    rcases List.infix_cons_iff.1 h with hpre | hinf
    · cases q with
      | nil => exact Or.inl (List.infix_refl [])
      | cons x q' =>
        rcases List.cons_prefix_cons.1 hpre with ⟨rfl, _⟩
        exact absurd (List.mem_cons_self x q') hc
    · exact Or.inr hinf
  | cons a A' ih =>
    intro h
    rw [List.cons_append] at h
    rcases List.infix_cons_iff.1 h with hpre | hinf
    · have hpd := prefix_drop_sep hc (show q <+: (a :: A') ++ c :: B by simpa using hpre)
      exact Or.inl ( List.IsPrefix.isInfix hpd)
    · rcases ih hinf with hA | hB
      · exact Or.inl (hA.trans (List.infix_cons (List.infix_refl A')))
      · exact Or.inr hB

/-- When `breakNl` finds no newline, the string is its own single line. -/
theorem breakNl_none : ∀ s : JStr, (breakNl s).2 = none → '\n' ∉ s := by
  intro s
  induction s with
  | nil => intro _; exact List.not_mem_nil '\n'
  | cons c cs ih =>
    intro h
    by_cases hc : c = '\n'
    · simp [breakNl, hc] at h
    · simp only [breakNl, if_neg hc] at h
      intro hm
      rcases List.mem_cons.1 hm with rfl | hm'
      · exact hc rfl
      · exact (ih h) hm'

/-- When `breakNl` finds a newline, it decomposes the string as the
newline-free first line, the newline, and the remainder. -/
theorem breakNl_some : ∀ (s rest : JStr), (breakNl s).2 = some rest →
    '\n' ∉ (breakNl s).1 ∧ s = (breakNl s).1 ++ '\n' :: rest ∧ rest.length < s.length := by
  intro s
  induction s with
  | nil => intro rest h; simp [breakNl] at h
  | cons c cs ih =>
    intro rest h
    by_cases hc : c = '\n'
    · subst hc
      simp only [breakNl, if_pos rfl] at h ⊢
      cases h
      exact ⟨List.not_mem_nil '\n', rfl, by simp⟩
    · simp only [breakNl, if_neg hc] at h ⊢
      rcases ih rest h with ⟨h1, h2, h3⟩
      refine ⟨?_, ?_, by simpa using Nat.lt_trans h3 (by simp)⟩
      · intro hm
        rcases List.mem_cons.1 hm with rfl | hm'
        · exact hc rfl
        · exact h1 hm'
      · simpa using h2

/-- A newline-free string splits into itself alone. -/
theorem splitNl_no_nl : ∀ s : JStr, '\n' ∉ s → splitNl s = [s] := by
  intro s
  induction s with
  | nil => intro _; rfl
  | cons c cs ih =>
    intro h
    have hc : c ≠ '\n' := fun hh => h (hh ▸ List.mem_cons_self c cs)
    have hcs : '\n' ∉ cs := fun hm => h (List.mem_cons_of_mem c hm)
    simp only [splitNl, ih hcs, if_neg hc]

/-- Splitting a string whose first line is `l` peels off `l`. -/
theorem splitNl_sep : ∀ (l : JStr), '\n' ∉ l → ∀ rest, splitNl (l ++ '\n' :: rest) = l :: splitNl rest := by
  intro l
  induction l with
  | nil =>
    intro _ rest
    cases hsp : splitNl rest with
    | nil => exact absurd hsp (splitNl_ne_nil rest)
    | cons m ms => simp [splitNl, hsp]
  | cons c l' ih =>
    intro h rest
    have hc : c ≠ '\n' := fun hh => h (hh ▸ List.mem_cons_self c l')
    have hl' : '\n' ∉ l' := fun hm => h (List.mem_cons_of_mem c hm)
    have hstep := ih hl' rest
    show (match splitNl (l' ++ '\n' :: rest) with
      | [] => [[]]
      | m :: ms => if c = '\n' then [] :: m :: ms else (c :: m) :: ms) = _
    rw [hstep]
    simp [if_neg hc]

/-- A newline-free infix of a string is an infix of one of its lines. -/
theorem infix_line {q : JStr} (hq : '\n' ∉ q) :
    ∀ (n : Nat) (s : JStr), s.length ≤ n → q <:+: s → ∃ l, l ∈ splitNl s ∧ q <:+: l := by
  intro n
  induction n with
  | zero =>
    intro s hlen h
    have hs : s = [] := List.length_eq_zero.1 (by omega)
    subst hs
    exact ⟨[], by simp [splitNl], h⟩
  | succ m ih =>
    intro s hlen h
    cases hbr : (breakNl s).2 with
    | none =>
      have hnn := breakNl_none s hbr
      rw [splitNl_no_nl s hnn]
      exact ⟨s, List.mem_singleton.2 rfl, h⟩
    | some rest =>
      rcases breakNl_some s rest hbr with ⟨h1, h2, h3⟩
      rw [h2] at h
      rw [h2, splitNl_sep (breakNl s).1 h1 rest]
      rcases infix_split_sep hq (breakNl s).1 h with hA | hB
      · exact ⟨(breakNl s).1, List.mem_cons_self _ _, hA⟩
      · have hrest : rest.length ≤ m := by
          rw [h2] at hlen
          simp at hlen
          omega
        rcases ih rest hrest hB with ⟨l, hl, hql⟩
        exact ⟨l, List.mem_cons_of_mem _ hl, hql⟩

/-- Each piece of `splitNl` is an infix of the rejoined string. -/
theorem infix_joinNl : ∀ (ls : List JStr) (l : JStr), l ∈ ls → l <:+: joinNl ls := by
  intro ls
  induction ls with
  | nil => intro l h; exact absurd h (List.not_mem_nil l)
  | cons a ls' ih =>
    intro l h
    cases ls' with
    | nil =>
      rcases List.mem_singleton.1 h with rfl
      exact List.infix_refl l
    | cons b ls'' =>
      have hjoin : joinNl (a :: b :: ls'') = a ++ '\n' :: joinNl (b :: ls'') := rfl
      rw [hjoin]
      rcases List.mem_cons.1 h with rfl | hmem
      · have hpa := List.prefix_append l ('\n' :: joinNl (b :: ls''))
        exact List.IsPrefix.isInfix hpa
      · refine (ih l hmem).trans ⟨a ++ ['\n'], [], by simp⟩

/-- Each line of a string is an infix of the string. -/
theorem line_infix (s l : JStr) (h : l ∈ splitNl s) : l <:+: s := by
  have := infix_joinNl (splitNl s) l h
  rwa [joinNl_splitNl s] at this

/-- The per-line scan reports at least one line whenever the whole-source
scan matches and the folded query spans no newline. -/
theorem matchingLines_ne_nil (q : JStr) (cs : Bool) (src : JStr)
    (hq : '\n' ∉ caseFold cs q)
    (h : caseFold cs q <:+: caseFold cs src) : matchingLines q cs src ≠ [] := by
  rcases infix_line hq (caseFold cs src).length (caseFold cs src) le_rfl h with ⟨l', hl', hq'⟩
  rw [splitNl_caseFold] at hl'
  rcases List.mem_map.1 hl' with ⟨l, hl, rfl⟩
  have hl2 : l ∈ (splitNl src).enum.map Prod.snd := by
    rw [List.enum_map_snd]
    exact hl
  rcases List.mem_map.1 hl2 with ⟨p, hp, hpl⟩
  have hpred : (fun p => decide (caseFold cs q <:+: caseFold cs p.2)) p = true := by
    show decide (caseFold cs q <:+: caseFold cs p.2) = true
    rw [hpl]
    exact decide_eq_true hq'
  have hmemf : p ∈ (splitNl src).enum.filter
      (fun p => decide (caseFold cs q <:+: caseFold cs p.2)) :=
    List.mem_filter.2 ⟨hp, hpred⟩
  intro hnil
  simp only [matchingLines] at hnil
  rw [List.map_eq_nil] at hnil
  rw [hnil] at hmemf
  exact List.not_mem_nil p hmemf

/-- Hits of the search loop carry indices at least the starting offset. -/
theorem searchFrom_lb (q : JStr) (cs : Bool) :
    ∀ (l : List Cell) (d : Nat) (hit : SearchHit),
    hit ∈ searchFrom q cs d l → d ≤ hit.cell_index := by
  intro l
  induction l with
  | nil => intro d hit h; exact absurd h (List.not_mem_nil hit)
  | cons c0 rest ih =>
    intro d hit h
    simp only [searchFrom] at h
    by_cases hc : caseFold cs q <:+: caseFold cs (normSource c0.source)
    · rw [if_pos hc] at h
      rcases List.mem_cons.1 h with rfl | hmem
      · exact le_rfl
      · exact Nat.le_of_succ_le (ih (d + 1) hit hmem)
    · rw [if_neg hc] at h
      exact Nat.le_of_succ_le (ih (d + 1) hit h)

/-- The search loop reports the cell at offset `d + i` exactly when the
(folded) whole-source scan matches that cell. -/
theorem searchFrom_any (q : JStr) (cs : Bool) :
    ∀ (l : List Cell) (d i : Nat) (c : Cell), l.get? i = some c →
    (((searchFrom q cs d l).any (fun hit => hit.cell_index == d + i)) = true ↔
      caseFold cs q <:+: caseFold cs (normSource c.source)) := by
  intro l
  induction l with
  | nil => intro d i c h; simp at h
  | cons c0 rest ih =>
    intro d i c h
    cases i with
    | zero =>
      obtain rfl : c0 = c := by simpa using h
      by_cases hc : caseFold cs q <:+: caseFold cs (normSource c0.source)
      · simp only [searchFrom, if_pos hc]
        constructor
        · intro _; exact hc
        · intro _
          apply List.any_eq_true.2
          refine ⟨_, List.mem_cons_self _ _, ?_⟩
          simp
      · simp only [searchFrom, if_neg hc]
        constructor
        · intro hany
          rcases List.any_eq_true.1 hany with ⟨hit, hmem, hbeq⟩
          have hge := searchFrom_lb q cs rest (d + 1) hit hmem
          have heq : hit.cell_index = d := by simpa using hbeq
          omega
        · intro hcontra
          exact absurd hcontra hc
    | succ j =>
      have hrest : rest.get? j = some c := by simpa using h
      have hshift : d + (j + 1) = (d + 1) + j := by omega
      by_cases hc : caseFold cs q <:+: caseFold cs (normSource c0.source)
      · simp only [searchFrom, if_pos hc]
        constructor
        · intro hany
          rcases List.any_eq_true.1 hany with ⟨hit, hmem, hbeq⟩
          rcases List.mem_cons.1 hmem with rfl | hmem'
          · simp only [beq_iff_eq] at hbeq
            omega
          · refine (ih (d + 1) j c hrest).1 (List.any_eq_true.2 ⟨hit, hmem', ?_⟩)
            rw [← hshift]
            exact hbeq
        · intro hinf
          have hany := (ih (d + 1) j c hrest).2 hinf
          rcases List.any_eq_true.1 hany with ⟨hit, hmem', hbeq⟩
          refine List.any_eq_true.2 ⟨hit, List.mem_cons_of_mem _ hmem', ?_⟩
          rw [hshift]
          exact hbeq
      · simp only [searchFrom, if_neg hc]
        rw [hshift]
        exact ih (d + 1) j c hrest

/-- C4 (amended): search reports a cell exactly when its (optionally
case-folded) normalized source contains the (optionally case-folded) query
as a substring; and whenever the query contains no newline, every reported
cell's match list is non-empty, i.e. the per-line scan agrees with the
whole-source scan.  (A query that spans a newline can match the whole
source while no single line contains it.) -/
theorem C4_search_spec (nb : Notebook) (q : JStr) (cs : Bool) :
    (∀ (i : Nat) (c : Cell), nb.cells.get? i = some c →
      (((searchNotebook nb q cs).any (fun hit => hit.cell_index == i)) = true ↔
        caseFold cs q <:+: caseFold cs (normSource c.source))) ∧
    ('\n' ∉ q → ∀ hit ∈ searchNotebook nb q cs, hit.matchList ≠ []) := by
  constructor
  · intro i c h
    have := searchFrom_any q cs nb.cells 0 i c h
    simpa using this
  · intro hq hit hmem
    have hq' : '\n' ∉ caseFold cs q := caseFold_nl cs q hq
    clear hq
    revert hit
    show ∀ hit ∈ searchFrom q cs 0 nb.cells, hit.matchList ≠ []
    generalize nb.cells = l
    generalize 0 = d
    induction l generalizing d with
    | nil => intro hit hmem; exact absurd hmem (List.not_mem_nil hit)
    | cons c0 rest ih =>
      intro hit hmem
      simp only [searchFrom] at hmem
      by_cases hc : caseFold cs q <:+: caseFold cs (normSource c0.source)
      · rw [if_pos hc] at hmem
        rcases List.mem_cons.1 hmem with rfl | hmem'
        · exact matchingLines_ne_nil q cs (normSource c0.source) hq' hc
        · exact ih (d + 1) hit hmem'
      · rw [if_neg hc] at hmem
        exact ih (d + 1) hit hmem

/-- C4 counterexample: searching the cell `"a\nb"` for the query `"a\nb"`
reports the cell (the whole-source scan matches) with an empty match list
(no single line contains the query), refuting the claim that every
reported cell's match list is non-empty. -/
theorem C4_counterexample :
    searchNotebook nbAB ['a', '\n', 'b'] true =
      [{ cell_index := 0, cell_type := .markdown, matchList := [] }] := by
  decide

/-- C4 witness: searching `"a\nb"` for the newline-free query `"a"`
reports cell 0, and every reported cell has a non-empty match list. -/
theorem C4_witness :
    ((searchNotebook nbAB ['a'] false).any (fun hit => hit.cell_index == 0)) = true ∧
    (∀ hit ∈ searchNotebook nbAB ['a'] false, hit.matchList ≠ []) :=
  ⟨((C4_search_spec nbAB ['a'] false).1 0 (newCell .markdown ['a', '\n', 'b'])
      (by decide)).2 (by decide),
    (C4_search_spec nbAB ['a'] false).2 (by decide)⟩

/-- Dropping a prefix-closed predicate through an append, when the left
part already contains a failing element. -/
theorem dropWhile_append_inside (p : Char → Bool) :
    ∀ (xs zs : JStr), (∃ x ∈ xs, p x = false) →
    (xs ++ zs).dropWhile p = xs.dropWhile p ++ zs := by
  intro xs
  induction xs with
  | nil => intro zs h; rcases h with ⟨x, hx, _⟩; exact absurd hx (List.not_mem_nil x)
  | cons x xs' ih =>
    intro zs h
    by_cases hp : p x = true
    · have hx' : ∃ y ∈ xs', p y = false := by
        rcases h with ⟨y, hy, hpy⟩
        rcases List.mem_cons.1 hy with rfl | hmem
        · rw [hp] at hpy; cases hpy
        · exact ⟨y, hmem, hpy⟩
      simp only [List.cons_append, List.dropWhile_cons, hp, if_true]
      exact ih zs hx'
    · have hp' : p x = false := by simpa using hp
      simp [List.dropWhile_cons, hp']

/-- Taking while a predicate holds stops at the separator, so the part
after a failing separator is irrelevant. -/
theorem takeWhile_append_sep (p : Char → Bool) (c : Char) (hc : p c = false) :
    ∀ (xs ys : JStr), (xs ++ c :: ys).takeWhile p = xs.takeWhile p := by
  intro xs
  induction xs with
  | nil => intro ys; simp [List.takeWhile_cons, hc]
  | cons x xs' ih =>
    intro ys
    by_cases hp : p x = true
    · simp only [List.cons_append, List.takeWhile_cons, hp, if_true]
      rw [ih ys]
    · have hp' : p x = false := by simpa using hp
      simp [List.takeWhile_cons, hp']

/-- A newline-free keyword is a prefix of `l ++ '\n' :: rest` exactly when
it is a prefix of the first line `l`. -/
theorem prefix_append_nl (kw l rest : JStr) (hkw : '\n' ∉ kw) :
    kw <+: l ++ '\n' :: rest ↔ kw <+: l := by
  constructor
  · intro h
    rcases le_or_lt kw.length l.length with hle | hlt
    · exact List.prefix_of_prefix_length_le h (List.prefix_append l ('\n' :: rest)) hle
    · exfalso
      have hl : l <+: kw :=
        List.prefix_of_prefix_length_le (List.prefix_append l ('\n' :: rest)) h (by omega)
      rcases hl with ⟨d, rfl⟩
      rcases h with ⟨t, ht⟩
      rw [List.append_assoc] at ht
      have hdt : d ++ t = '\n' :: rest := List.append_cancel_left ht
      cases d with
      | nil => simp at hlt
      | cons d0 d' =>
        have hd0 : d0 = '\n' := by
          have := congrArg (fun x => x.head?) hdt
          simpa using this
        exact hkw (by rw [← hd0]; exact List.mem_append_right l (List.mem_cons_self d0 d'))
  · intro h
    exact h.trans (List.prefix_append l ('\n' :: rest))

/-- When the keyword does not start the string, the attempt fails. -/
theorem tryAt_not_pre (kw s : JStr) (h : ¬ kw <+: s) : tryAt kw s = none := by
  have hb : kw.isPrefixOf s = false := by
    rw [← Bool.not_eq_true]
    intro hb
    exact h ( List.isPrefixOf_iff_prefix.1 hb)
  simp [tryAt, hb]

/-- When the keyword starts the string, the attempt runs `swMatch` on the
remainder. -/
theorem tryAt_pre (kw m : JStr) : tryAt kw (kw ++ m) = swMatch m := by
  have hb : kw.isPrefixOf (kw ++ m) = true := List.isPrefixOf_iff_prefix.2 ⟨m, rfl⟩
  simp [tryAt, hb, List.drop_left]

/-- The whitespace-and-word matcher cannot see past a newline when its input's first line is not
whitespace only. -/
theorem swMatch_sep (m rest : JStr) (hna : ¬ (m.all isSpaceChar = true)) :
    swMatch (m ++ '\n' :: rest) = swMatch m := by
  cases m with
  | nil => exact absurd rfl hna
  | cons c0 m' =>
    by_cases hsp : isSpaceChar c0 = true
    · have hx : ∃ x ∈ m', isSpaceChar x = false := by
        by_contra hno
        push_neg at hno
        apply hna
        rw [List.all_eq_true]
        intro x hx
        rcases List.mem_cons.1 hx with rfl | hmem
        · exact hsp
        · have hxx := hno x hmem
          simpa [Bool.not_eq_false] using hxx
      have hdw : (m' ++ '\n' :: rest).dropWhile isSpaceChar =
          m'.dropWhile isSpaceChar ++ '\n' :: rest :=
        dropWhile_append_inside isSpaceChar m' ('\n' :: rest) hx
      have htw : ((m'.dropWhile isSpaceChar) ++ '\n' :: rest).takeWhile isWordChar =
          (m'.dropWhile isSpaceChar).takeWhile isWordChar :=
        takeWhile_append_sep isWordChar '\n' (by decide) (m'.dropWhile isSpaceChar) rest
      simp only [List.cons_append, swMatch, hsp, if_true]
      rw [hdw, htw]
    · have hsp' : isSpaceChar c0 = false := by simpa using hsp
      simp [swMatch, hsp']

/-- The regex attempt at a line start sees only the first line, provided
that line is not the bare keyword followed by whitespace only. -/
theorem tryAt_sep (kw l rest : JStr) (hkw : '\n' ∉ kw)
    (hgood : ¬ (kw <+: l ∧ (l.drop kw.length).all isSpaceChar = true)) :
    tryAt kw (l ++ '\n' :: rest) = tryAt kw l := by
  by_cases hpre : kw <+: l
  · rcases hpre with ⟨m, rfl⟩
    have hnall : ¬ (m.all isSpaceChar = true) := by
      intro hall
      exact hgood ⟨⟨m, rfl⟩, by rwa [List.drop_left kw m]⟩
    rw [List.append_assoc, tryAt_pre kw (m ++ '\n' :: rest), tryAt_pre kw m]
    exact swMatch_sep m rest hnall
  · rw [tryAt_not_pre kw _ (fun h => hpre ((prefix_append_nl kw l rest hkw).1 h)),
      tryAt_not_pre kw l hpre]

/-- With enough fuel and no bare-keyword line, the fuelled line-start scan
equals the per-line scan over the split source. -/
theorem findPatAux_eq (kw : JStr) (hkw : '\n' ∉ kw) :
    ∀ (fuel : Nat) (s : JStr), s.length < fuel → noBareKw kw s →
    findPatAux kw fuel s = (splitNl s).findSome? (tryAt kw) := by
  intro fuel
  induction fuel with
  | zero => intro s h _; omega
  | succ n ih =>
    intro s hlen hgood
    cases hbr : (breakNl s).2 with
    | none =>
      have hnn := breakNl_none s hbr
      rw [splitNl_no_nl s hnn]
      simp only [findPatAux, hbr]
      cases htry : tryAt kw s with
      | some w => simp [List.findSome?_cons, htry]
      | none => simp [List.findSome?_cons, htry]
    | some rest =>
      rcases breakNl_some s rest hbr with ⟨h1, h2, h3⟩
      have hsplit : splitNl s = (breakNl s).1 :: splitNl rest := by
        conv_lhs => rw [h2]
        exact splitNl_sep (breakNl s).1 h1 rest
      have hgood0 : ¬ ((kw <+: (breakNl s).1) ∧
          ((breakNl s).1.drop kw.length).all isSpaceChar = true) := by
        apply hgood
        rw [hsplit]
        exact List.mem_cons_self _ _
      have htry : tryAt kw s = tryAt kw (breakNl s).1 := by
        conv_lhs => rw [h2]
        exact tryAt_sep kw (breakNl s).1 rest hkw hgood0
      have hgoodrest : noBareKw kw rest := by
        intro l hl
        exact hgood l (by rw [hsplit]; exact List.mem_cons_of_mem _ hl)
      have hih := ih rest (by omega) hgoodrest
      simp only [findPatAux, hbr, htry, hsplit]
      cases htl : tryAt kw (breakNl s).1 with
      | some w => simp [List.findSome?_cons, htl]
      | none => simp [List.findSome?_cons, htl, hih]

/-- The leftmost multiline regex match over the whole source equals the
first per-line match, under the bare-keyword proviso. -/
theorem findPatFrom_eq (kw : JStr) (hkw : '\n' ∉ kw) (s : JStr) (hgood : noBareKw kw s) :
    findPatFrom kw s = (splitNl s).findSome? (tryAt kw) :=
  findPatAux_eq kw hkw (s.length + 1) s (by omega) hgood

/-- C5 (amended): the outline title suffix of a code cell is the name from
the first line matching the function-definition pattern whenever any line
matches it, even when a class-definition line occurs earlier; only when no
line matches the `def` pattern is the first `class`-matching line used, and
a cell matching neither pattern gets no suffix.  (Proviso: no line is a
bare keyword followed only by whitespace, where the pattern's `\s+` would
cross the line break.) -/
theorem C5_outline_title (source : JStr)
    (hdef : noBareKw defKw source) (hcls : noBareKw classKw source) :
    codeTitle source = claimTitleDefFirst source := by
  have h1 : ('\n' ∉ defKw) := by decide
  have h2 : ('\n' ∉ classKw) := by decide
  simp only [codeTitle, claimTitleDefFirst, findPatFrom_eq defKw h1 source hdef,
    findPatFrom_eq classKw h2 source hcls]

/-- C5 counterexample: on the source `"class A\ndef f"`, the earliest
pattern-matching line is the class line, so the claim predicts the suffix
`class A`; the code instead consults the `def` pattern first and reports
`def f`. -/
theorem C5_counterexample :
    codeTitle exC5 = some (.defn ['f']) ∧
    claimTitle exC5 = some (.cls ['A']) ∧
    codeTitle exC5 ≠ claimTitle exC5 := by
  decide

/-- C5 witness: the amended statement applies to `"class A\ndef f"`, whose
lines satisfy the proviso. -/
theorem C5_witness :
    noBareKw defKw exC5 ∧ noBareKw classKw exC5 ∧
    codeTitle exC5 = claimTitleDefFirst exC5 :=
  ⟨by decide, by decide, C5_outline_title exC5 (by decide) (by decide)⟩
